import Mathlib

/-!
Verification development for the ToolSorter / JukTool application
(`JukTool.py`): a shallow embedding in Lean 4 of the data model and the
operations referenced by the specification, together with theorems that
settle the specification claims against the code.

Conventions used throughout:
* Python machine-level strings are `String`; `str.strip()` / `str.lower()`
  are modelled for the ASCII range (all inputs handled by the theorems and
  witnesses below are ASCII, where the Python Unicode versions agree).
* Python JSON values are the inductive `Json`; machine integers are `Int`
  (Python ints are unbounded, so no wrap-around is needed).
* Exceptions are `Except String` / an `Option String` error slot; a Python
  `try ... except` boundary turns an internal failure into data.
* `hashlib.sha1(...).hexdigest()` is implemented bit-faithfully over `Nat`
  (words are kept below 2 ^ 32 with explicit `% 4294967296`).
-/

set_option maxRecDepth 100000

namespace JukTool

/-! ## Python string helpers (ASCII fragment) -/

/-- The characters removed by Python `str.strip()` (ASCII whitespace). -/
def isPyWs (c : Char) : Bool :=
  c == ' ' || c == '\t' || c == '\n' || c == '\r' || c == '\x0b' || c == '\x0c'

/-- Python `str.strip()` (for ASCII whitespace). -/
def pyStrip (s : String) : String :=
  String.mk (((s.data.dropWhile isPyWs).reverse.dropWhile isPyWs).reverse)

/-- Lower-case a single character (ASCII range of Python `str.lower()`). -/
def lowerChar (c : Char) : Char :=
  if 'A' ≤ c && c ≤ 'Z' then Char.ofNat (c.toNat + 32) else c

/-- Python `str.lower()` (ASCII fragment). -/
def pyLower (s : String) : String :=
  String.mk (s.data.map lowerChar)

/-- Python substring test `needle in haystack` on lists of characters:
`listPre` checks a leading segment, `listSub` scans every tail. -/
def listPre [BEq α] : List α → List α → Bool
  | [], _ => true
  | _ :: _, [] => false
  | a :: as, b :: bs => a == b && listPre as bs

/-- Scan every suffix of the haystack for the needle (Python `in`). -/
def listSub [BEq α] (n : List α) : List α → Bool
  | [] => listPre n []
  | h :: t => listPre n (h :: t) || listSub n t

/-- Python `needle in haystack` for strings. -/
def strIn (needle hay : String) : Bool :=
  listSub needle.data hay.data

/-- UTF-8 encoding of one character, as byte values. -/
def utf8Char (c : Char) : List Nat :=
  let n := c.toNat
  if n < 128 then [n]
  else if n < 2048 then [192 + n / 64, 128 + n % 64]
  else if n < 65536 then [224 + n / 4096, 128 + (n / 64) % 64, 128 + n % 64]
  else [240 + n / 262144, 128 + (n / 4096) % 64, 128 + (n / 64) % 64, 128 + n % 64]

/-- Python `s.encode("utf-8")`, as a list of byte values. -/
def strBytes (s : String) : List Nat :=
  s.data.foldr (fun c acc => utf8Char c ++ acc) []

/-! ## SHA-1 (`hashlib.sha1`), implemented over `Nat` -/

/-- Truncate to a 32-bit word. -/
def w32 (n : Nat) : Nat := n % 4294967296

/-- Rotate a 32-bit word left by `k`. -/
def rotl (k n : Nat) : Nat := (w32 (n <<< k)) ||| (n >>> (32 - k))

/-- SHA-1 message padding: append `0x80`, zeros, and the 64-bit big-endian
bit length, reaching a multiple of 64 bytes. -/
def sha1Pad (msg : List Nat) : List Nat :=
  let L := msg.length
  let zeros := (119 - L % 64) % 64
  msg ++ 128 :: (List.replicate zeros 0 ++
    [56, 48, 40, 32, 24, 16, 8, 0].map (fun sh => ((8 * L) >>> sh) % 256))

/-- Pack bytes into 32-bit big-endian words. -/
def words32 : List Nat → List Nat
  | b0 :: b1 :: b2 :: b3 :: rest =>
      (((b0 * 256 + b1) * 256 + b2) * 256 + b3) :: words32 rest
  | _ => []

/-- Split a word list into 16-word blocks (`fuel` bounds the recursion and is
instantiated with the list length, which is always sufficient). -/
def blocks16 : Nat → List Nat → List (List Nat)
  | 0, _ => []
  | _ + 1, [] => []
  | f + 1, w :: ws => (w :: ws).take 16 :: blocks16 f ((w :: ws).drop 16)

/-- SHA-1 message schedule: extend 16 words to 80. -/
def sha1Sched (ws : List Nat) : Array Nat :=
  (List.range 64).foldl
    (fun a _ =>
      let n := a.size
      a.push (rotl 1 ((a.getD (n - 3) 0) ^^^ (a.getD (n - 8) 0) ^^^
        (a.getD (n - 14) 0) ^^^ (a.getD (n - 16) 0))))
    ws.toArray

/-- SHA-1 round function. -/
def sha1F (i b c d : Nat) : Nat :=
  if i < 20 then (b &&& c) ||| ((b ^^^ 4294967295) &&& d)
  else if i < 40 then b ^^^ c ^^^ d
  else if i < 60 then (b &&& c) ||| (b &&& d) ||| (c &&& d)
  else b ^^^ c ^^^ d

/-- SHA-1 round constants. -/
def sha1K (i : Nat) : Nat :=
  if i < 20 then 0x5A827999
  else if i < 40 then 0x6ED9EBA1
  else if i < 60 then 0x8F1BBCDC
  else 0xCA62C1D6

/-- Process one 64-byte block. -/
def sha1Block (h : Nat × Nat × Nat × Nat × Nat) (block : List Nat) :
    Nat × Nat × Nat × Nat × Nat :=
  let w := sha1Sched block
  let s := (List.range 80).foldl
    (fun (st : Nat × Nat × Nat × Nat × Nat) i =>
      let a := st.1; let b := st.2.1; let c := st.2.2.1
      let d := st.2.2.2.1; let e := st.2.2.2.2
      let temp := w32 (rotl 5 a + sha1F i b c d + e + sha1K i + w.getD i 0)
      (temp, a, rotl 30 b, c, d))
    h
  (w32 (h.1 + s.1), w32 (h.2.1 + s.2.1), w32 (h.2.2.1 + s.2.2.1),
   w32 (h.2.2.2.1 + s.2.2.2.1), w32 (h.2.2.2.2 + s.2.2.2.2))

/-- One hexadecimal digit. -/
def hexDigit (n : Nat) : Char :=
  if n < 10 then Char.ofNat (48 + n) else Char.ofNat (87 + n)

/-- Eight-digit lowercase hex rendering of a 32-bit word. -/
def hex8 (n : Nat) : List Char :=
  (List.range 8).map (fun i => hexDigit ((n >>> ((7 - i) * 4)) % 16))

/-- `hashlib.sha1(bytes).hexdigest()`. -/
def sha1Hex (msg : List Nat) : String :=
  let ws := words32 (sha1Pad msg)
  let h := (blocks16 ws.length ws).foldl sha1Block
    (0x67452301, 0xEFCDAB89, 0x98BADCFE, 0x10325476, 0xC3D2E1F0)
  String.mk (hex8 h.1 ++ hex8 h.2.1 ++ hex8 h.2.2.1 ++ hex8 h.2.2.2.1 ++
    hex8 h.2.2.2.2)

/-- `JukTool.py` lines 132-134, `tool_id`: the content identity of a catalog
entry.  The *concatenation* `name + "|" + link` is stripped and lowered (not
each field separately), UTF-8 encoded, SHA-1 hashed, and the first 16 hex
digits are kept. -/
def tool_id (name link : String) : String :=
  String.mk ((sha1Hex (strBytes (pyLower (pyStrip (name ++ "|" ++ link))))).data.take 16)

/-! ## JSON values -/

/-- Python JSON values (numbers restricted to integers, which covers every
value this program stores or compares numerically). -/
inductive Json where
  | null : Json
  | bool (b : Bool) : Json
  | num (n : Int) : Json
  | str (s : String) : Json
  | arr (elems : List Json) : Json
  | obj (entries : List (String × Json)) : Json

/-- Python truthiness (`bool(v)`) on JSON values. -/
def pyTruthy : Json → Bool
  | .null => false
  | .bool b => b
  | .num n => n != 0
  | .str s => s != ""
  | .arr l => !l.isEmpty
  | .obj m => !m.isEmpty

/-- Truthiness of the result of `dict.get` (`None` when the key is absent). -/
def pyTruthyO : Option Json → Bool
  | none => false
  | some j => pyTruthy j

/-- Numeric view used by Python `==` (`True == 1`, `False == 0`). -/
def toNum : Json → Option Int
  | .bool b => some (if b then 1 else 0)
  | .num n => some n
  | _ => none

/-- Python `==` on the JSON values this program ever compares: scalars are
compared faithfully (including bool/int unification); any comparison that
involves a container returns `false`.  In the source, container operands are
either compared against the scalar `"1.0"` (version check, where Python also
yields unequal) or have already passed the hashability check that excludes
containers, so the deep container-to-container case is unreachable. -/
def pyEqB : Json → Json → Bool
  | .null, .null => true
  | a, b =>
    match toNum a, toNum b with
    | some x, some y => x == y
    | _, _ =>
      match a, b with
      | .str s, .str t => s == t
      | _, _ => false

/-- Python `==` lifted to `dict.get` results (`None == None` is `True`,
`None` equals no JSON value). -/
def pyEqO : Option Json → Option Json → Bool
  | none, none => true
  | some a, some b => pyEqB a b
  | _, _ => false

/-- Hashability of a JSON value (`set` members must be hashable: lists and
dicts raise `TypeError`). -/
def pyHashable : Json → Bool
  | .arr _ => false
  | .obj _ => false
  | _ => true

/-- Hashability of a `dict.get` result (`None` is hashable). -/
def pyHashableO : Option Json → Bool
  | none => true
  | some j => pyHashable j

/-- Lookup on an entry list (a Python dict; first occurrence — parsed JSON
objects have unique keys).  `none` models a missing key / `dict.get`
returning `None`. -/
def oGet : List (String × Json) → String → Option Json
  | [], _ => none
  | p :: t, k => if p.1 == k then some p.2 else oGet t k

/-- `dict` lookup on a JSON object. -/
def jGet (j : Json) (k : String) : Option Json :=
  match j with
  | .obj m => oGet m k
  | _ => none

/-- `dict.get(k, default)`. -/
def jGetD (j : Json) (k : String) (d : Json) : Json :=
  (jGet j k).getD d

/-- Python `str(v)` as used in f-string error messages.  Scalars are rendered
faithfully; containers are abbreviated (their rendering never influences any
claim, only the text of an error message). -/
def jStr : Json → String
  | .null => "None"
  | .bool b => if b then "True" else "False"
  | .num n => toString n
  | .str s => s
  | .arr _ => "[...]"
  | .obj _ => "\x7b...\x7d"

/-- Python `int(v)`: identity on ints, 0/1 on bools, base-10 parse of a
stripped string (sign allowed), `TypeError`/`ValueError` otherwise. -/
def pyToInt : Json → Except String Int
  | .num n => .ok n
  | .bool b => .ok (if b then 1 else 0)
  | .str s =>
    let t := pyStrip s
    let core := if t.data.head? == some '-' || t.data.head? == some '+'
      then t.data.tail else t.data
    if core.isEmpty || !core.all (fun c => c.isDigit) then
      .error ("ValueError: invalid literal for int(): " ++ s)
    else
      let v : Int := Int.ofNat (core.foldl (fun a c => a * 10 + (c.toNat - 48)) 0)
      .ok (if t.data.head? == some '-' then -v else v)
  | .null => .error "TypeError: int() argument is None"
  | _ => .error "TypeError: int() argument is not a scalar"

/-- `v.strip()` on a JSON value: only strings have `.strip`. -/
def pyStrStrip : Json → Except String String
  | .str s => .ok (pyStrip s)
  | _ => .error "AttributeError: strip"

/-! ## Data model: catalog entries and the three persisted stores -/

/-- A normalized catalog entry (the dict built at `JukTool.py` lines 370-379,
and the shape of every entry the app itself stores).  `keywords` elements are
raw JSON values: the import only checks that the *container* is a list.
`extra` carries any additional keys (e.g. `ai_enriched` / `ai_note` on
enriched entries); they sit between `added_at` and `id` in the serialized
dict, and the import never reads them. -/
structure Tool where
  name : String
  link : String
  description : String
  category : String
  keywords : List Json
  price_euros_1_to_5 : Int
  added_at : Json
  extra : List (String × Json)
  id : String

/-- Serialization of a stored entry back to the JSON dict the export emits. -/
def Tool.toJson (t : Tool) : Json :=
  .obj ([("name", .str t.name), ("link", .str t.link),
    ("description", .str t.description), ("category", .str t.category),
    ("keywords", .arr t.keywords),
    ("price_euros_1_to_5", .num t.price_euros_1_to_5),
    ("added_at", t.added_at)] ++ t.extra ++ [("id", .str t.id)])

/-- The persisted state of the three JSON stores: `data/tools.json` (the
`"tools"` list), `data/comments.json` and `data/external_links.json`
(mappings from entry id to a list of raw comment / link dicts). -/
structure St where
  tools : List Tool
  comments : List (String × List Json)
  links : List (String × List Json)

/-- The empty stores (`DEFAULT_DB` / `DEFAULT_COMMENTS` / `DEFAULT_LINKS`). -/
def St.empty : St := ⟨[], [], []⟩

/-- Python `k in dict` on an id-keyed store. -/
def containsKey : String → List (String × List Json) → Bool
  | _, [] => false
  | k, p :: t => p.1 == k || containsKey k t

/-- `dict[k]` on an id-keyed store, defaulting to `[]` (the code only reads
keys it has just ensured are present). -/
def getListD : String → List (String × List Json) → List Json
  | _, [] => []
  | k, p :: t => if p.1 == k then p.2 else getListD k t

/-- Replace the value stored under `k` (first occurrence). -/
def updFirst (k : String) (v : List Json) :
    List (String × List Json) → List (String × List Json)
  | [] => []
  | (k1, v1) :: t => if k1 == k then (k1, v) :: t else (k1, v1) :: updFirst k v t

/-! ## `euros` and `load_db` -/

/-- `JukTool.py` lines 125-130, `euros`: the price *display* helper.  This is
the only place the price is clamped to [1, 5].  The argument is the stored
price (always a Python int in app-produced states, so `int(n)` is the
identity and the `except` branch that substitutes 3 is unreachable). -/
def euros (n : Int) : String :=
  String.mk (List.replicate (max 1 (min 5 n)).toNat '💶')

/-- The outcome of reading `data/tools.json`: the file is absent, is present
but unreadable or not valid JSON (`corrupt`), or parses to a JSON value. -/
inductive DbFile where
  | absent : DbFile
  | corrupt : DbFile
  | valid (j : Json) : DbFile

/-- `DEFAULT_DB = {"tools": []}` as a JSON document. -/
def defaultDbJson : Json := .obj [("tools", .arr [])]

/-- `JukTool.py` lines 50-58, `load_db`: returns the new file state and the
loaded catalog.  A missing file is seeded with the default (`save_db`); an
unreadable or non-JSON file is swallowed by the bare `except` and the default
is returned *without* writing the file. -/
def load_db : DbFile → DbFile × Json
  | .absent => (.valid defaultDbJson, defaultDbJson)
  | .corrupt => (.corrupt, defaultDbJson)
  | .valid j => (.valid j, j)

/-! ## `ai_enrich` -/

/-- The external-collaborator boundary of `ai_enrich`: whether
`get_openai_client()` returns a client (`have_openai`), and the outcome of
the whole `try` body — the completion call plus `json.loads` — as either the
parsed reply object or the exception text.  The DuckDuckGo snippet lookup
only contributes prompt text (and swallows its own failures), so it does not
appear in the state. -/
structure AiEnv where
  clientOk : Bool
  reply : Except String Json

/-- `{**d, k: v}` update: replace the value in place if the key exists (a
dict holds each key once), else append the new pair at the end. -/
def setKey : List (String × Json) → String → Json → List (String × Json)
  | [], k, v => [(k, v)]
  | p :: t, k, v => if p.1 == k then (p.1, v) :: t else p :: setKey t k v

/-- Apply several `{**d, ...}` overrides left to right. -/
def setKeys (m : List (String × Json)) (kvs : List (String × Json)) :
    List (String × Json) :=
  kvs.foldl (fun acc p => setKey acc p.1 p.2) m

/-- `JukTool.py` lines 196-264, `ai_enrich`, acting on the entry dict.  On a
missing client or any exception the original dict is returned with only
`ai_enriched`/`ai_note` added; on success `description`, `keywords` (cleaned:
first 20, strings only, stripped non-empty, lowercased) and `category` are
replaced and the two flags added. -/
def ai_enrich (env : AiEnv) (tool : List (String × Json)) :
    List (String × Json) :=
  if !env.clientOk then
    setKeys tool [("ai_enriched", .bool false),
      ("ai_note", .str "OpenAI non configuré")]
  else
    match env.reply with
    | .error e =>
      setKeys tool [("ai_enriched", .bool false),
        ("ai_note", .str ("Erreur IA: " ++ e))]
    | .ok data =>
      let kws0 := jGetD data "keywords" (.arr [])
      let kws := match kws0 with
        | .arr l => Json.arr ((l.take 20).filterMap (fun j =>
            match j with
            | .str s => if pyStrip s != "" then some (Json.str (pyLower (pyStrip s))) else none
            | _ => none))
        | other => other
      setKeys tool
        [("description", jGetD data "description" (jGetD tool' "description" (.str ""))),
         ("keywords", kws),
         ("category", jGetD data "category" (jGetD tool' "category" (.str ""))),
         ("ai_enriched", .bool true),
         ("ai_note", .str "Enrichi par IA avec recherche web")]
where
  tool' : Json := .obj tool

/-! ## Export (`export_all_data`) -/

/-- Total number of annotations in a store (`sum(len(c) for c in ...)`). -/
def annotCount (m : List (String × List Json)) : Nat :=
  (m.map (fun p => p.2.length)).sum

/-- `JukTool.py` lines 326-345, `export_all_data`: the unified snapshot of
the three stores.  `date` stands for `datetime.now().isoformat()`. -/
def export_all_data (date : String) (s : St) : Json :=
  .obj [("version", .str "1.0"),
    ("export_date", .str date),
    ("tools", .arr (s.tools.map Tool.toJson)),
    ("comments", .obj (s.comments.map (fun p => (p.1, Json.arr p.2)))),
    ("external_links", .obj (s.links.map (fun p => (p.1, Json.arr p.2)))),
    ("metadata", .obj [("total_tools", .num s.tools.length),
      ("total_comments", .num (annotCount s.comments)),
      ("total_links", .num (annotCount s.links))])]

/-! ## Import (`import_all_data`) -/

/-- The result record built at `JukTool.py` lines 349-354. -/
structure ImportResult where
  tools_imported : Nat
  comments_imported : Nat
  links_imported : Nat
  errors : List String

/-- The tool-eligibility guard at line 368:
`isinstance(tool, dict) and (tool.get("name") or tool.get("link"))`. -/
def tEligible (t : Json) : Bool :=
  match t with
  | .obj _ => pyTruthyO (jGet t "name") || pyTruthyO (jGet t "link")
  | _ => false

/-- The raising field expressions of the normalized dict (lines 371-376), in
dict-literal evaluation order: the first failing `.strip()` or `int(...)`
aborts with its error.  None of them reads the clock. -/
def normChecked (t : Json) :
    Except String (String × String × String × String × Int) := do
  let name ← pyStrStrip (jGetD t "name" (.str ""))
  let link ← pyStrStrip (jGetD t "link" (.str ""))
  let desc ← pyStrStrip (jGetD t "description" (.str ""))
  let cat ← pyStrStrip (jGetD t "category" (.str ""))
  let price ← pyToInt (jGetD t "price_euros_1_to_5" (.num 3))
  pure (name, link, desc, cat, price)

/-- `tool.get("added_at") or datetime.utcnow().isoformat() + "Z"` (line 377):
a falsy stored value is replaced by the current time. -/
def addedAt (now : String) (t : Json) : Json :=
  match jGet t "added_at" with
  | some v => if pyTruthy v then v else Json.str now
  | none => Json.str now

/-- Normalization of one incoming tool (lines 370-379): the raising field
expressions first (in evaluation order), then the total ones (`keywords`
list check, `added_at` defaulting, the recomputed id of line 379). -/
def normTool (now : String) (t : Json) : Except String Tool :=
  match normChecked t with
  | .error e => .error e
  | .ok (name, link, desc, cat, price) =>
    .ok ⟨name, link, desc, cat,
      (match jGet t "keywords" with | some (.arr l) => l | _ => []),
      price, addedAt now t, [], tool_id name link⟩

/-- The tool-merge loop (lines 367-385): `db` is the in-memory list,
`ex` the `existing_tools` id set, `n` the running `tools_imported`.
An exception stops the loop, keeping the count accumulated so far. -/
def toolsLoop (now : String) : List Json → List Tool → List String → Nat →
    List Tool × Nat × Option String
  | [], db, _, n => (db, n, none)
  | t :: rest, db, ex, n =>
    if tEligible t then
      match normTool now t with
      | .error e => (db, n, some e)
      | .ok nt =>
        if ex.contains nt.id then toolsLoop now rest db ex n
        else toolsLoop now rest (db ++ [nt]) (ex ++ [nt.id]) (n + 1)
    else toolsLoop now rest db ex n

/-- The `"tools"` section (lines 362-387).  On success the updated catalog is
persisted (`save_db`); on an exception the in-memory list is discarded (the
save is never reached) and the partial count plus the error are reported. -/
def importToolsSec (now : String) (d : Json) (s : St) :
    St × Nat × Option String :=
  match jGet d "tools" with
  | some (.arr ts) =>
    match toolsLoop now ts s.tools (s.tools.map (·.id)) 0 with
    | (db, n, none) => ({ s with tools := db }, n, none)
    | (_, n, some e) => (s, n, some e)
  | _ => (s, 0, none)

/-- `comment.get("id")` — total helper (callers have checked `isinstance`). -/
def cGetId (c : Json) : Option Json :=
  jGet c "id"

/-- The annotation-eligibility guard (line 398 / 416), parameterized by the
two required fields (`author`/`content` for comments, `title`/`url` for
links). -/
def cEligible (f1 f2 : String) (c : Json) : Bool :=
  match c with
  | .obj _ => pyTruthyO (jGet c f1) && pyTruthyO (jGet c f2)
  | _ => false

/-- Building `{c.get("id") for c in stored}` (line 400 / 418): each element
must support `.get` (be a dict) and each id must be hashable, else the set
comprehension raises. -/
def collectIds : List Json → Except String (List (Option Json))
  | [] => .ok []
  | c :: rest =>
    match c with
    | .obj _ =>
      if pyHashableO (cGetId c) then
        (fun ids => cGetId c :: ids) <$> collectIds rest
      else .error "TypeError: unhashable type"
    | _ => .error "AttributeError: get"

/-- Python `x not in idset` (negated here): membership by `==`, after hashing
the operand. -/
def memIds (x : Option Json) (ids : List (Option Json)) : Bool :=
  ids.any (fun i => pyEqO x i)

/-- The inner per-key annotation loop (lines 397-403 / 415-421): `cur` is the
stored list under this key, `n` the count for this key.  An exception aborts
with the current state of the list discarded by the caller. -/
def annotLoop (f1 f2 : String) : List Json → List Json → Nat →
    List Json × Nat × Option String
  | [], cur, n => (cur, n, none)
  | c :: rest, cur, n =>
    if cEligible f1 f2 c then
      match collectIds cur with
      | .error e => (cur, n, some e)
      | .ok ids =>
        if pyHashableO (cGetId c) then
          if memIds (cGetId c) ids then annotLoop f1 f2 rest cur n
          else annotLoop f1 f2 rest (cur ++ [c]) (n + 1)
        else (cur, n, some "TypeError: unhashable type")
    else annotLoop f1 f2 rest cur n

/-- The per-document annotation merge over the `(entry id, value)` items of
the incoming mapping (lines 392-403 / 410-421): non-list values are skipped;
a missing key is first seeded with `[]`. -/
def annotSec (f1 f2 : String) : List (String × Json) →
    List (String × List Json) → Nat →
    List (String × List Json) × Nat × Option String
  | [], m, n => (m, n, none)
  | (k, v) :: rest, m, n =>
    match v with
    | .arr cs =>
      let m1 := if containsKey k m then m else m ++ [(k, [])]
      match annotLoop f1 f2 cs (getListD k m1) 0 with
      | (cur, dn, none) => annotSec f1 f2 rest (updFirst k cur m1) (n + dn)
      | (_, dn, some e) => (m, n + dn, some e)
    | _ => annotSec f1 f2 rest m n

/-- The `"comments"` section (lines 389-405): on success the merged mapping
is persisted (`save_comments`); on an exception the file is left unchanged
and the partial count plus the error are reported. -/
def importCommentsSec (d : Json) (s : St) : St × Nat × Option String :=
  match jGet d "comments" with
  | some (.obj entries) =>
    match annotSec "author" "content" entries s.comments 0 with
    | (m, n, none) => ({ s with comments := m }, n, none)
    | (_, n, some e) => (s, n, some e)
  | _ => (s, 0, none)

/-- The `"external_links"` section (lines 407-423), same merge rule keyed on
`title`/`url`. -/
def importLinksSec (d : Json) (s : St) : St × Nat × Option String :=
  match jGet d "external_links" with
  | some (.obj entries) =>
    match annotSec "title" "url" entries s.links 0 with
    | (m, n, none) => ({ s with links := m }, n, none)
    | (_, n, some e) => (s, n, some e)
  | _ => (s, 0, none)

/-- The message appended by the outer `except` (line 430). -/
def mergeErr (e : String) : String :=
  "Erreur lors de l\x27import: " ++ e

/-- The version warning (lines 358-360): recorded when
`data.get("version", "1.0") != "1.0"`, empty on a non-dict document (where
`.get` itself raises before the check). -/
def versionErrs (d : Json) : List String :=
  match d with
  | .obj _ =>
    if pyEqB (jGetD d "version" (.str "1.0")) (.str "1.0") then []
    else ["Version non supportée: " ++ jStr (jGetD d "version" (.str "1.0"))]
  | _ => []

/-- `JukTool.py` lines 347-432, `import_all_data`: the unified id-based
additive merge.  Sections run in order (tools, comments, links); each
persists its own store on completing; the surrounding `try` turns the first
exception into an entry of `errors`, keeping the counters accumulated so far
and every save already performed.  The `metadata` branch only calls
`st.info` and is a no-op on the stores.  `now` stands for
`datetime.utcnow().isoformat() + "Z"`. -/
def import_all_data (now : String) (d : Json) (s : St) : St × ImportResult :=
  match d with
  | .obj _ =>
    let ve := versionErrs d
    match importToolsSec now d s with
    | (s1, n1, some e) => (s1, ⟨n1, 0, 0, ve ++ [mergeErr e]⟩)
    | (s1, n1, none) =>
      match importCommentsSec d s1 with
      | (s2, n2, some e) => (s2, ⟨n1, n2, 0, ve ++ [mergeErr e]⟩)
      | (s2, n2, none) =>
        match importLinksSec d s2 with
        | (s3, n3, some e) => (s3, ⟨n1, n2, n3, ve ++ [mergeErr e]⟩)
        | (s3, n3, none) => (s3, ⟨n1, n2, n3, ve⟩)
  | _ => (s, ⟨0, 0, 0, [mergeErr "AttributeError: get"]⟩)

/-! ## Search (lines 796-952) -/

/-- One keyword test of the exact phase (line 812):
`any(query_lower in kw.lower() for kw in keywords)` — short-circuiting, and
raising `AttributeError` at the first non-string keyword it reaches. -/
def kwAny (qL : String) : List Json → Except String Bool
  | [] => .ok false
  | k :: rest =>
    match k with
    | .str s => if strIn qL (pyLower s) then .ok true else kwAny qL rest
    | _ => .error "AttributeError: lower"

/-- `JukTool.py` lines 802-819, the exact phase: case-insensitive substring
match of the query against name, any keyword, or category, in catalog
order. -/
def exact_matches (qL : String) : List Tool → Except String (List Tool)
  | [] => .ok []
  | t :: rest =>
    if strIn qL (pyLower t.name) then
      (fun l => t :: l) <$> exact_matches qL rest
    else do
      if (← kwAny qL t.keywords) then
        (fun l => t :: l) <$> exact_matches qL rest
      else if strIn qL (pyLower t.category) then
        (fun l => t :: l) <$> exact_matches qL rest
      else
        exact_matches qL rest

/-- `' '.join(keywords)` (line 928): raises at a non-string element. -/
def pyJoinSpace : List Json → Except String String
  | [] => .ok ""
  | [.str s] => .ok s
  | .str s :: k :: rest => (fun r => s ++ " " ++ r) <$> pyJoinSpace (k :: rest)
  | _ => .error "TypeError: join"

/-- `JukTool.py` lines 927-929, `score_tool`: the fuzzy key of one entry.
`r` stands for `rapidfuzz.fuzz.token_set_ratio` (an external library
function, abstracted as an arbitrary score; its value range does not matter
to any ranking property). -/
def score_tool (r : String → String → Nat) (qL : String) (t : Tool) :
    Except String Nat := do
  let kj ← pyJoinSpace t.keywords
  let text := t.name ++ " " ++ t.description ++ " " ++ kj ++ " " ++ t.category
  pure (r qL (pyLower text))

/-- Decorate each entry with its fuzzy key (Python `sorted` evaluates the key
function once per element, in list order, before sorting). -/
def mapScores (r : String → String → Nat) (qL : String) :
    List Tool → Except String (List (Tool × Nat))
  | [] => .ok []
  | t :: rest => do
    let v ← score_tool r qL t
    let l ← mapScores r qL rest
    pure ((t, v) :: l)

/-- Insert into a descending-sorted list, before the first element whose key
is not larger (so equal keys keep their original relative order). -/
def insDesc (k : α → Nat) (x : α) : List α → List α
  | [] => [x]
  | y :: ys => if k y ≤ k x then x :: y :: ys else y :: insDesc k x ys

/-- The stable descending sort `sorted(·, key=k, reverse=True)`. -/
def sortDesc (k : α → Nat) : List α → List α
  | [] => []
  | x :: xs => insDesc k x (sortDesc k xs)

/-- `JukTool.py` lines 931-932, the fuzzy fallback:
`sorted(tools, key=score_tool, reverse=True)[:5]`. -/
def smart_results (r : String → String → Nat) (qL : String)
    (ts : List Tool) : Except String (List Tool) := do
  let keyed ← mapScores r qL ts
  pure (((sortDesc (fun p => p.2) keyed).map (fun p => p.1)).take 5)

/-- The external state of the GPT-assisted branch: the `use_gpt` checkbox,
`have_openai()`, and the outcome of the completion call plus `json.loads`
(lines 860-886). -/
structure GptEnv where
  use_gpt : Bool
  have_openai : Bool
  reply : Except String Json

/-- Resolution of the GPT recommendations back to entries by id (lines
894-898): a non-dict recommendation raises inside the same `try`; ids that
match no entry are dropped. -/
def resolveRecs (data : Json) (ts : List Tool) :
    Except String (List Tool) :=
  match jGet data "recommendations" with
  | none => .ok []
  | some (.arr rs) =>
    rs.foldlM (fun acc rc =>
      match rc with
      | .obj _ =>
        match ts.find? (fun t => pyEqO (some (.str t.id)) (jGet rc "id")) with
        | some t => .ok (acc ++ [t])
        | none => .ok acc
      | _ => .error "AttributeError: get") []
  | some _ => .error "TypeError: not iterable"

/-- What the search tab displays. -/
inductive SearchOutcome where
  | noTools : SearchOutcome
  | exact (l : List Tool) : SearchOutcome
  | gptRecs (l : List Tool) : SearchOutcome
  | fallback (l : List Tool) : SearchOutcome

/-- `JukTool.py` lines 796-952, the search flow for a non-empty query:
exact phase first; the fuzzy fallback and the GPT branch run only when the
exact phase found nothing; a GPT failure sets `use_gpt = False` and falls
back to the fuzzy phase. -/
def searchFlow (r : String → String → Nat) (env : GptEnv) (q : String)
    (ts : List Tool) : Except String SearchOutcome :=
  if ts.isEmpty then .ok .noTools
  else
    match exact_matches (pyLower q) ts with
    | .error e => .error e
    | .ok em =>
      if !em.isEmpty then .ok (.exact em)
      else if env.use_gpt && env.have_openai then
        match env.reply with
        | .ok data =>
          match resolveRecs data ts with
          | .ok l2 => .ok (.gptRecs l2)
          | .error _ =>
            match smart_results r (pyLower q) ts with
            | .ok l2 => .ok (.fallback l2)
            | .error e => .error e
        | .error _ =>
          match smart_results r (pyLower q) ts with
          | .ok l2 => .ok (.fallback l2)
          | .error e => .error e
      else
        match smart_results r (pyLower q) ts with
        | .ok l2 => .ok (.fallback l2)
        | .error e => .error e

/-! ## Relations and predicates used by the theorems -/

/-- `a` is an initial segment of `b`: records are only ever appended. -/
def ListLe (a b : List α) : Prop := ∃ t, a ++ t = b

/-- Store-level extension for an id-keyed annotation store: every existing
key keeps its position and its list is only appended to; new keys appear
after the existing ones. -/
inductive AnnLe : List (String × List Json) → List (String × List Json) → Prop
  | nil : ∀ m, AnnLe [] m
  | cons : ∀ k l l2 t t2, ListLe l l2 → AnnLe t t2 →
      AnnLe ((k, l) :: t) ((k, l2) :: t2)

/-- The import never overwrites or deletes: all three stores only grow. -/
def StExtends (s s2 : St) : Prop :=
  ListLe s.tools s2.tools ∧ AnnLe s.comments s2.comments ∧
    AnnLe s.links s2.links

/-- A well-behaved stored annotation: a dict whose id is hashable.  Every
annotation the app itself stores (via `add_comment` / `add_external_link` or
a completed import) has this shape: the import appends only `isinstance`
checked dicts whose id has been hashed by the duplicate test. -/
def GoodC (c : Json) : Prop :=
  (∃ es, c = Json.obj es) ∧ pyHashableO (cGetId c) = true

/-- Extension that only appends well-behaved annotations (what one import
section actually does to its store). -/
inductive AnnExt : List (String × List Json) → List (String × List Json) → Prop
  | nil : ∀ m, (∀ p ∈ m, ∀ c ∈ p.2, GoodC c) → AnnExt [] m
  | cons : ∀ k l ex t t2, (∀ c ∈ ex, GoodC c) → AnnExt t t2 →
      AnnExt ((k, l) :: t) ((k, l ++ ex) :: t2)

/-- All members of a stored list are well-behaved (so the duplicate-check set
comprehension over it succeeds). -/
def IdsOk (l : List Json) : Prop := ∀ c ∈ l, GoodC c

/-- A store key is saturated for an incoming list: the key exists and every
eligible incoming annotation is already present by id. -/
def SatEntry (f1 f2 : String) (k : String) (cs : List Json)
    (m : List (String × List Json)) : Prop :=
  containsKey k m = true ∧ ∀ c ∈ cs, cEligible f1 f2 c = true →
    IdsOk (getListD k m) ∧ memIds (cGetId c) ((getListD k m).map cGetId) = true

/-- The whole incoming mapping is saturated against the store. -/
def SatA (f1 f2 : String) (entries : List (String × Json))
    (m : List (String × List Json)) : Prop :=
  ∀ p ∈ entries, ∀ cs, p.2 = Json.arr cs → SatEntry f1 f2 p.1 cs m

/-- The incoming tool list of a document. -/
def docToolsOf (d : Json) : List Json :=
  match jGet d "tools" with
  | some (.arr ts) => ts
  | _ => []

/-- The incoming comments mapping of a document. -/
def docCommentsOf (d : Json) : List (String × Json) :=
  match jGet d "comments" with
  | some (.obj es) => es
  | _ => []

/-- The incoming external-links mapping of a document. -/
def docLinksOf (d : Json) : List (String × Json) :=
  match jGet d "external_links" with
  | some (.obj es) => es
  | _ => []

/-- A well-formed annotation store: unique keys (Python dicts cannot repeat
them) and only well-behaved members.  Every store the app itself produces is
of this shape. -/
def AnnWf (m : List (String × List Json)) : Prop :=
  (m.map (·.1)).Nodup ∧ ∀ p ∈ m, ∀ c ∈ p.2, GoodC c

/-- The fields `ai_enrich` may rewrite. -/
def aiChanged : List String :=
  ["description", "keywords", "category", "ai_enriched", "ai_note"]

/-- The failure note `ai_enrich` attaches (`none` when the enrichment
succeeds). -/
def aiFailNote (env : AiEnv) : Option String :=
  if !env.clientOk then some "OpenAI non configuré"
  else match env.reply with
    | .error e => some ("Erreur IA: " ++ e)
    | .ok _ => none

/-- The fuzzy key of an entry, when its computation succeeds. -/
def fuzzyKey (r : String → String → Nat) (qL : String) (t : Tool) : Nat :=
  match score_tool r qL t with
  | .ok v => v
  | .error _ => 0

/-! ## Concrete instances used by witnesses and counterexamples -/

/-- A well-typed incoming tool. -/
def dGood : Json := .obj [("name", .str "t1"), ("link", .str "l1")]

/-- An incoming tool whose price raises in `int(...)`. -/
def dBad : Json := .obj [("name", .str "t2"), ("price_euros_1_to_5", .null)]

/-- A document whose tools section fails after one successful append. -/
def dC1 : Json := .obj [("version", .str "1.0"), ("tools", .arr [dGood, dBad])]

/-- A fully well-typed document (one tool, one comment). -/
def dW : Json := .obj [("tools", .arr [dGood]),
  ("comments", .obj [("k", .arr [.obj [("author", .str "a"),
    ("content", .str "x"), ("id", .str "c9")]])])]

/-- A one-tool document with the given price. -/
def priceDoc (p : Int) : Json := .obj [("tools", .arr [.obj
  [("name", .str "x"), ("link", .str "y"), ("price_euros_1_to_5", .num p)]])]

/-- A store whose single entry carries an id that is *not* the recomputed
content id of its fields (as a hand-edited `tools.json` can). -/
def sBad : St := ⟨[⟨"x", "y", "", "", [], 3, .str "d", [], "wrong"⟩], [], []⟩

/-- An app-produced store: the entry id is the recomputed content id, and the
annotation stores hold dicts with hashable ids. -/
def sGood : St := ⟨[⟨"x", "y", "d", "c", [.str "k"], 3, .str "t", [], tool_id "x" "y"⟩],
  [(tool_id "x" "y", [.obj [("id", .str "c1"), ("author", .str "al"),
    ("content", .str "hi")]])],
  [(tool_id "x" "y", [.obj [("id", .str "l1"), ("title", .str "t"),
    ("url", .str "u")]])]⟩

/-- A document with two id-less comments under one key and two id-less links
under another. -/
def c10doc (k : String) (c1 c2 : Json) (k2 : String) (l1 l2 : Json) : Json :=
  .obj [("comments", .obj [(k, .arr [c1, c2])]),
    ("external_links", .obj [(k2, .arr [l1, l2])])]

/-- Two catalog entries used by the search witnesses. -/
def tCat : List Tool :=
  [⟨"ChatGPT", "l1", "chat assistant", "chatbot", [.str "ai"], 3, .str "t", [], "id1"⟩,
   ⟨"Midjourney", "l2", "images", "image", [], 3, .str "t", [], "id2"⟩]

/-- A constant similarity score (stands for any score function). -/
def rZero : String → String → Nat := fun _ _ => 0

/-- A GPT environment with the assisted phase disabled. -/
def gOff : GptEnv := ⟨false, false, .error "off"⟩

/-- An enrichment environment with no configured client. -/
def envNoKey : AiEnv := ⟨false, .error "unused"⟩

/-- A sample entry dict for the enrichment witness. -/
def toolW : List (String × Json) := [("name", .str "n"), ("link", .str "l"),
  ("price_euros_1_to_5", .num 2)]

/-! ## C2 — the identity function normalizes the concatenation -/

/-- C2 (amended): `tool_id` lowercases and trims the *joined* string
`name + "|" + link`, so entries whose joined strings agree after stripping
and lowering get the same id.  (Equality of the separately-trimmed fields is
not sufficient; see the counterexample.) -/
theorem c2_tool_id_normalized_concat (n1 l1 n2 l2 : String)
    (h : pyLower (pyStrip (n1 ++ "|" ++ l1)) = pyLower (pyStrip (n2 ++ "|" ++ l2))) :
    tool_id n1 l1 = tool_id n2 l2 := by
  unfold tool_id
  rw [h]

/-- C2 witness: two entries differing only in case collapse to one id. -/
theorem c2_witness :
    pyLower (pyStrip ("A" ++ "|" ++ "b")) = pyLower (pyStrip ("a" ++ "|" ++ "b")) ∧
    tool_id "A" "b" = tool_id "a" "b" :=
  ⟨by decide, c2_tool_id_normalized_concat "A" "b" "a" "b" (by decide)⟩

/-- C2 counterexample: the names `"a "` and `"a"` are equal after trimming
and lowering, and the links are identical, yet the computed ids differ —
the code trims the concatenation, so the inner space survives in `"a |b"`. -/
theorem c2_counterexample :
    pyLower (pyStrip "a ") = pyLower (pyStrip "a") ∧
    pyLower (pyStrip "b") = pyLower (pyStrip "b") ∧
    tool_id "a " "b" ≠ tool_id "a" "b" := by
  refine ⟨by decide, by decide, ?_⟩
  decide

/-! ## C3 — the price is clamped only at display time -/

/-- C3 (amended): `import_all_data` stores the incoming price as
`int(price)` without clamping (an imported `price=9` is stored as `9`);
clamping to [1, 5] happens only in the `euros` display helper, which renders
`9` as five symbols and `-3` as one. -/
theorem c3_price_not_clamped_on_import :
    (∀ p : Int, (import_all_data "T" (priceDoc p) St.empty).1.tools.map
      (·.price_euros_1_to_5) = [p]) ∧
    euros 9 = "💶💶💶💶💶" ∧ euros (-3) = "💶" :=
  ⟨fun _ => rfl, rfl, rfl⟩

/-- C3 counterexample: importing an entry with `price=9` stores `9`, not the
`5` the claim asserts. -/
theorem c3_counterexample :
    (import_all_data "T" (priceDoc 9) St.empty).1.tools.map
      (·.price_euros_1_to_5) = [9] ∧
    ¬ ((import_all_data "T" (priceDoc 9) St.empty).1.tools.map
      (·.price_euros_1_to_5) = [5]) := by
  refine ⟨rfl, ?_⟩
  decide

/-! ## C7 — a corrupt store is swallowed but not replaced on disk -/

/-- C7 (amended): `load_db` returns the default empty catalog both when the
file is missing and when it is unreadable/corrupt, but it *persists* the
default only in the missing-file case; a corrupt file is left on disk
untouched (the bare `except` returns the default without saving). -/
theorem c7_load_db_amended :
    load_db .absent = (.valid defaultDbJson, defaultDbJson) ∧
    load_db .corrupt = (.corrupt, defaultDbJson) ∧
    ∀ j, load_db (.valid j) = (.valid j, j) :=
  ⟨rfl, rfl, fun _ => rfl⟩

/-- C7 counterexample: on a corrupt file the default is returned, but the
file state stays corrupt — the default is not persisted, contradicting the
claim that both failure modes persist it. -/
theorem c7_counterexample :
    (load_db .corrupt).2 = defaultDbJson ∧
    (load_db .corrupt).1 = .corrupt ∧
    ∀ j, DbFile.corrupt ≠ DbFile.valid j :=
  ⟨rfl, rfl, fun _ h => DbFile.noConfusion h⟩

/-! ## C8 — the enrichment frame -/

theorem oGet_setKey_same (m : List (String × Json)) (k : String) (v : Json) :
    oGet (setKey m k v) k = some v := by
  induction m with
  | nil => simp [setKey, oGet]
  | cons p t ih =>
    by_cases hp : (p.1 == k) = true
    · simp [setKey, oGet, hp]
    · simp [setKey, oGet, hp, ih]

theorem oGet_setKey_other (m : List (String × Json)) (k k2 : String) (v : Json)
    (hne : k2 ≠ k) : oGet (setKey m k v) k2 = oGet m k2 := by
  induction m with
  | nil =>
    simp [setKey, oGet]
    exact fun he => hne he.symm
  | cons p t ih =>
    by_cases hp : (p.1 == k) = true
    · have hq : ¬ (p.1 == k2) = true := fun hq =>
        hne ((beq_iff_eq.mp hq).symm.trans (beq_iff_eq.mp hp))
      simp [setKey, oGet, hp, hq]
    · by_cases hq : (p.1 == k2) = true
      · simp [setKey, oGet, hp, hq]
      · simp [setKey, oGet, hp, hq, ih]

theorem oGet_setKeys_not_mem (m : List (String × Json))
    (kvs : List (String × Json)) (k : String)
    (h : ∀ p ∈ kvs, p.1 ≠ k) : oGet (setKeys m kvs) k = oGet m k := by
  induction kvs generalizing m with
  | nil => rfl
  | cons p t ih =>
    have step : oGet (setKeys (setKey m p.1 p.2) t) k = oGet (setKey m p.1 p.2) k :=
      ih _ (fun q hq => h q (List.mem_cons_of_mem _ hq))
    calc oGet (setKeys m (p :: t)) k
        = oGet (setKeys (setKey m p.1 p.2) t) k := rfl
      _ = oGet (setKey m p.1 p.2) k := step
      _ = oGet m k :=
          oGet_setKey_other m p.1 k p.2 (fun he => h p (List.mem_cons_self _ _) he.symm)

/-- Retrieving and frame facts for the two-flag failure overlay. -/
theorem failOverlay (tool : List (String × Json)) (note : String) :
    oGet (setKeys tool [("ai_enriched", Json.bool false),
      ("ai_note", Json.str note)]) "ai_enriched" = some (.bool false) ∧
    oGet (setKeys tool [("ai_enriched", Json.bool false),
      ("ai_note", Json.str note)]) "ai_note" = some (.str note) ∧
    ∀ k, k ≠ "ai_enriched" → k ≠ "ai_note" →
      oGet (setKeys tool [("ai_enriched", Json.bool false),
        ("ai_note", Json.str note)]) k = oGet tool k := by
  refine ⟨?_, ?_, ?_⟩
  · show oGet (setKey (setKey tool "ai_enriched" (.bool false))
      "ai_note" (.str note)) "ai_enriched" = _
    rw [oGet_setKey_other _ _ _ _ (by decide), oGet_setKey_same]
  · show oGet (setKey (setKey tool "ai_enriched" (.bool false))
      "ai_note" (.str note)) "ai_note" = _
    rw [oGet_setKey_same]
  · intro k h1 h2
    exact oGet_setKeys_not_mem _ _ _ (by
      intro p hp
      simp only [List.mem_cons, List.not_mem_nil, or_false] at hp
      rcases hp with rfl | rfl
      · exact fun he => h1 he.symm
      · exact fun he => h2 he.symm)

/-- C8: `ai_enrich` may rewrite only `description`, `keywords`, `category`
and the two flags; on any failure (no client, any exception) it returns the
entry with every field unchanged except `ai_enriched := false` and a
human-readable `ai_note` carrying the failure reason. -/
theorem c8_ai_enrich_frame (env : AiEnv) (tool : List (String × Json)) :
    (∀ k, k ∉ aiChanged → oGet (ai_enrich env tool) k = oGet tool k) ∧
    (∀ msg, aiFailNote env = some msg →
      oGet (ai_enrich env tool) "ai_enriched" = some (.bool false) ∧
      oGet (ai_enrich env tool) "ai_note" = some (.str msg) ∧
      ∀ k, k ≠ "ai_enriched" → k ≠ "ai_note" →
        oGet (ai_enrich env tool) k = oGet tool k) := by
  cases hc : env.clientOk with
  | false =>
    have hred : ai_enrich env tool = setKeys tool
        [("ai_enriched", .bool false), ("ai_note", .str "OpenAI non configuré")] := by
      unfold ai_enrich
      rw [hc]
      rfl
    have hnote : aiFailNote env = some "OpenAI non configuré" := by
      unfold aiFailNote
      rw [hc]
      rfl
    refine ⟨?_, ?_⟩
    · intro k hk
      simp only [aiChanged, List.mem_cons, List.not_mem_nil, or_false,
        not_or] at hk
      rw [hred]
      exact (failOverlay tool _).2.2 k (fun he => hk.2.2.2.1 he)
        (fun he => hk.2.2.2.2 he)
    · intro msg hmsg
      rw [hnote] at hmsg
      cases hmsg
      rw [hred]
      exact failOverlay tool _
  | true =>
    cases hr : env.reply with
    | error e =>
      have hred : ai_enrich env tool = setKeys tool
          [("ai_enriched", .bool false), ("ai_note", .str ("Erreur IA: " ++ e))] := by
        unfold ai_enrich
        rw [hc, hr]
        rfl
      have hnote : aiFailNote env = some ("Erreur IA: " ++ e) := by
        unfold aiFailNote
        rw [hc, hr]
        rfl
      refine ⟨?_, ?_⟩
      · intro k hk
        simp only [aiChanged, List.mem_cons, List.not_mem_nil, or_false,
          not_or] at hk
        rw [hred]
        exact (failOverlay tool _).2.2 k (fun he => hk.2.2.2.1 he)
          (fun he => hk.2.2.2.2 he)
      · intro msg hmsg
        rw [hnote] at hmsg
        cases hmsg
        rw [hred]
        exact failOverlay tool _
    | ok data =>
      have hnote : aiFailNote env = none := by
        unfold aiFailNote
        rw [hc, hr]
        rfl
      refine ⟨?_, ?_⟩
      · intro k hk
        simp only [aiChanged, List.mem_cons, List.not_mem_nil, or_false,
          not_or] at hk
        unfold ai_enrich
        rw [hc, hr]
        exact oGet_setKeys_not_mem _ _ _ (by
          intro p hp
          simp only [List.mem_cons, List.not_mem_nil, or_false] at hp
          rcases hp with rfl | rfl | rfl | rfl | rfl
          · exact fun he => hk.1 he.symm
          · exact fun he => hk.2.1 he.symm
          · exact fun he => hk.2.2.1 he.symm
          · exact fun he => hk.2.2.2.1 he.symm
          · exact fun he => hk.2.2.2.2 he.symm)
      · intro msg hmsg
        rw [hnote] at hmsg
        cases hmsg

/-- C8 witness: with no configured client, the sample entry keeps its fields
and gains the two failure flags. -/
theorem c8_witness :
    oGet (ai_enrich envNoKey toolW) "name" = some (.str "n") ∧
    oGet (ai_enrich envNoKey toolW) "ai_enriched" = some (.bool false) ∧
    oGet (ai_enrich envNoKey toolW) "ai_note" = some (.str "OpenAI non configuré") :=
  ⟨(c8_ai_enrich_frame envNoKey toolW).1 "name" (by decide),
   ((c8_ai_enrich_frame envNoKey toolW).2 _ rfl).1,
   ((c8_ai_enrich_frame envNoKey toolW).2 _ rfl).2.1⟩

/-! ## C10 — id-less annotations collapse under the duplicate check -/

theorem getListD_append (m : List (String × List Json)) (k : String)
    (l : List Json) (h : containsKey k m = false) :
    getListD k (m ++ [(k, l)]) = l := by
  induction m with
  | nil => simp [getListD]
  | cons p t ih =>
    cases hpk : (p.1 == k) with
    | true => simp [containsKey, hpk] at h
    | false =>
      simp only [containsKey, hpk, Bool.false_or] at h
      simp [getListD, hpk, ih h]

theorem updFirst_append (m : List (String × List Json)) (k : String)
    (v l : List Json) (h : containsKey k m = false) :
    updFirst k v (m ++ [(k, l)]) = m ++ [(k, v)] := by
  induction m with
  | nil => simp [updFirst]
  | cons p t ih =>
    cases hpk : (p.1 == k) with
    | true => simp [containsKey, hpk] at h
    | false =>
      simp only [containsKey, hpk, Bool.false_or] at h
      simp [updFirst, hpk, ih h]

/-- Merging one key with two eligible id-less annotations into a store that
does not yet hold the key: the first is appended, the second is skipped as a
duplicate (both ids are the absent value `None`). -/
theorem annotSec_two_idless (f1 f2 kk : String) (e1 e2 : List (String × Json))
    (m : List (String × List Json)) (n : Nat)
    (hk : containsKey kk m = false)
    (h1 : cEligible f1 f2 (Json.obj e1) = true)
    (h2 : cEligible f1 f2 (Json.obj e2) = true)
    (hi1 : oGet e1 "id" = none) (hi2 : oGet e2 "id" = none) :
    annotSec f1 f2 [(kk, Json.arr [Json.obj e1, Json.obj e2])] m n =
      (m ++ [(kk, [Json.obj e1])], n + 1, none) := by
  have hcg1 : cGetId (Json.obj e1) = none := hi1
  have hcg2 : cGetId (Json.obj e2) = none := hi2
  have hloop : annotLoop f1 f2 [Json.obj e1, Json.obj e2] [] 0 =
      ([Json.obj e1], 1, none) := by
    simp [annotLoop, collectIds, memIds, pyEqO, pyHashableO, h1, h2, hcg1, hcg2]
  have hg : getListD kk (m ++ [(kk, [])]) = ([] : List Json) :=
    getListD_append m kk [] hk
  simp only [annotSec, hk, if_false, Bool.false_eq_true, hg, hloop]
  rw [updFirst_append m kk [Json.obj e1] [] hk]

/-- C10: during import, annotations lacking an `id` all compare equal under
the duplicate check (their id is the absent `None`): of two id-less eligible
comments under a fresh key only the first is appended, the second silently
skipped; the same holds for id-less external links.  The tool counter stays
0 (no `tools` section in the document) and no error is recorded. -/
theorem c10_idless_dedupe (now : String) (s : St) (k k2 : String)
    (e1 e2 f1 f2 : List (String × Json))
    (hkc : containsKey k s.comments = false)
    (hkl : containsKey k2 s.links = false)
    (ha1 : pyTruthyO (oGet e1 "author") = true)
    (hb1 : pyTruthyO (oGet e1 "content") = true)
    (ha2 : pyTruthyO (oGet e2 "author") = true)
    (hb2 : pyTruthyO (oGet e2 "content") = true)
    (hi1 : oGet e1 "id" = none) (hi2 : oGet e2 "id" = none)
    (ht1 : pyTruthyO (oGet f1 "title") = true)
    (hu1 : pyTruthyO (oGet f1 "url") = true)
    (ht2 : pyTruthyO (oGet f2 "title") = true)
    (hu2 : pyTruthyO (oGet f2 "url") = true)
    (hj1 : oGet f1 "id" = none) (hj2 : oGet f2 "id" = none) :
    import_all_data now (c10doc k (.obj e1) (.obj e2) k2 (.obj f1) (.obj f2)) s =
      (⟨s.tools, s.comments ++ [(k, [.obj e1])], s.links ++ [(k2, [.obj f1])]⟩,
       ⟨0, 1, 1, []⟩) := by
  have hE1 : cEligible "author" "content" (Json.obj e1) = true := by
    show (pyTruthyO (oGet e1 "author") && pyTruthyO (oGet e1 "content")) = true
    rw [ha1, hb1]
    rfl
  have hE2 : cEligible "author" "content" (Json.obj e2) = true := by
    show (pyTruthyO (oGet e2 "author") && pyTruthyO (oGet e2 "content")) = true
    rw [ha2, hb2]
    rfl
  have hF1 : cEligible "title" "url" (Json.obj f1) = true := by
    show (pyTruthyO (oGet f1 "title") && pyTruthyO (oGet f1 "url")) = true
    rw [ht1, hu1]
    rfl
  have hF2 : cEligible "title" "url" (Json.obj f2) = true := by
    show (pyTruthyO (oGet f2 "title") && pyTruthyO (oGet f2 "url")) = true
    rw [ht2, hu2]
    rfl
  have hA := annotSec_two_idless "author" "content" k e1 e2 s.comments 0
    hkc hE1 hE2 hi1 hi2
  have hB := annotSec_two_idless "title" "url" k2 f1 f2 s.links 0
    hkl hF1 hF2 hj1 hj2
  have hcs : importCommentsSec
      (c10doc k (.obj e1) (.obj e2) k2 (.obj f1) (.obj f2)) s =
      ({ s with comments := s.comments ++ [(k, [Json.obj e1])] }, 1, none) := by
    show (match annotSec "author" "content"
        [(k, Json.arr [Json.obj e1, Json.obj e2])] s.comments 0 with
      | (m, n, none) => ({ s with comments := m }, n, none)
      | (_, n, some e) => (s, n, some e)) =
      ({ s with comments := s.comments ++ [(k, [Json.obj e1])] }, 1, none)
    rw [hA]
  have hls : importLinksSec
      (c10doc k (.obj e1) (.obj e2) k2 (.obj f1) (.obj f2))
      ({ s with comments := s.comments ++ [(k, [Json.obj e1])] }) =
      (St.mk s.tools (s.comments ++ [(k, [Json.obj e1])])
        (s.links ++ [(k2, [Json.obj f1])]), 1, none) := by
    show (match annotSec "title" "url"
        [(k2, Json.arr [Json.obj f1, Json.obj f2])] s.links 0 with
      | (m, n, none) =>
        (St.mk s.tools (s.comments ++ [(k, [Json.obj e1])]) m, n, none)
      | (_, n, some e) =>
        (St.mk s.tools (s.comments ++ [(k, [Json.obj e1])]) s.links, n, some e)) =
      (St.mk s.tools (s.comments ++ [(k, [Json.obj e1])])
        (s.links ++ [(k2, [Json.obj f1])]), 1, none)
    rw [hB]
  show (match importCommentsSec
      (c10doc k (.obj e1) (.obj e2) k2 (.obj f1) (.obj f2)) s with
    | (s2, n2, some e) => (s2, ImportResult.mk 0 n2 0 ([] ++ [mergeErr e]))
    | (s2, n2, none) =>
      match importLinksSec
          (c10doc k (.obj e1) (.obj e2) k2 (.obj f1) (.obj f2)) s2 with
      | (s3, n3, some e) => (s3, ImportResult.mk 0 n2 n3 ([] ++ [mergeErr e]))
      | (s3, n3, none) => (s3, ImportResult.mk 0 n2 n3 [])) =
    (St.mk s.tools (s.comments ++ [(k, [.obj e1])])
      (s.links ++ [(k2, [.obj f1])]), ImportResult.mk 0 1 1 [])
  rw [hcs]
  show (match importLinksSec
      (c10doc k (.obj e1) (.obj e2) k2 (.obj f1) (.obj f2))
      ({ s with comments := s.comments ++ [(k, [Json.obj e1])] }) with
    | (s3, n3, some e) => (s3, ImportResult.mk 0 1 n3 ([] ++ [mergeErr e]))
    | (s3, n3, none) => (s3, ImportResult.mk 0 1 n3 [])) =
    (St.mk s.tools (s.comments ++ [(k, [.obj e1])])
      (s.links ++ [(k2, [.obj f1])]), ImportResult.mk 0 1 1 [])
  rw [hls]

/-! ## Stable descending sort: permutation, order, tie stability -/

theorem insDesc_perm (k : α → Nat) (x : α) (l : List α) :
    (insDesc k x l).Perm (x :: l) := by
  induction l with
  | nil => exact List.Perm.refl _
  | cons y ys ih =>
    by_cases h : k y ≤ k x
    · simp [insDesc, h]
    · simp only [insDesc, h, if_false]
      exact (ih.cons y).trans (List.Perm.swap x y ys)

theorem sortDesc_perm (k : α → Nat) (l : List α) :
    (sortDesc k l).Perm l := by
  induction l with
  | nil => exact List.Perm.refl _
  | cons x xs ih =>
    exact (insDesc_perm k x (sortDesc k xs)).trans (ih.cons x)

theorem mem_insDesc (k : α → Nat) (x z : α) (l : List α) :
    z ∈ insDesc k x l ↔ z = x ∨ z ∈ l := by
  rw [(insDesc_perm k x l).mem_iff]
  simp

theorem insDesc_sorted (k : α → Nat) (x : α) (l : List α)
    (h : List.Sorted (fun a b => k b ≤ k a) l) :
    List.Sorted (fun a b => k b ≤ k a) (insDesc k x l) := by
  induction l with
  | nil => simp [insDesc]
  | cons y ys ih =>
    rw [List.sorted_cons] at h
    obtain ⟨hy, hys⟩ := h
    by_cases hc : k y ≤ k x
    · simp only [insDesc, hc, if_true]
      rw [List.sorted_cons]
      refine ⟨?_, List.sorted_cons.mpr ⟨hy, hys⟩⟩
      intro b hb
      rcases List.mem_cons.mp hb with rfl | hb2
      · exact hc
      · exact le_trans (hy b hb2) hc
    · simp only [insDesc, hc, if_false]
      rw [List.sorted_cons]
      refine ⟨?_, ih hys⟩
      intro b hb
      rcases (mem_insDesc k x b ys).mp hb with rfl | hb2
      · exact le_of_not_le hc
      · exact hy b hb2

theorem sortDesc_sorted (k : α → Nat) (l : List α) :
    List.Sorted (fun a b => k b ≤ k a) (sortDesc k l) := by
  induction l with
  | nil => simp [sortDesc]
  | cons x xs ih => exact insDesc_sorted k x (sortDesc k xs) ih

theorem insDesc_filter (k : α → Nat) (x : α) (l : List α) (v : Nat) :
    (insDesc k x l).filter (fun z => k z == v) =
      if (k x == v) = true then x :: l.filter (fun z => k z == v)
      else l.filter (fun z => k z == v) := by
  induction l with
  | nil =>
    by_cases hxv : (k x == v) = true <;> simp [insDesc, List.filter, hxv]
  | cons y ys ih =>
    by_cases hc : k y ≤ k x
    · simp only [insDesc, hc, if_true]
      by_cases hxv : (k x == v) = true <;>
        simp [List.filter_cons, hxv]
    · have hlt : k x < k y := Nat.lt_of_not_le hc
      simp only [insDesc, hc, if_false]
      by_cases hxv : (k x == v) = true
      · have hyv : ¬ (k y == v) = true := by
          intro hy
          rw [beq_iff_eq] at hxv hy
          omega
        by_cases hy2 : (k y == v) = true
        · exact absurd hy2 hyv
        · simp [List.filter_cons, hy2, ih, hxv]
      · by_cases hy2 : (k y == v) = true <;>
          simp [List.filter_cons, hy2, ih, hxv]

theorem sortDesc_filter (k : α → Nat) (l : List α) (v : Nat) :
    (sortDesc k l).filter (fun z => k z == v) =
      l.filter (fun z => k z == v) := by
  induction l with
  | nil => rfl
  | cons x xs ih =>
    show (insDesc k x (sortDesc k xs)).filter _ = _
    rw [insDesc_filter, List.filter_cons, ih]

theorem insDesc_map_pair (σ : α → Nat) (x : α) (l : List α) :
    insDesc (fun p => p.2) (x, σ x) (l.map (fun t => (t, σ t))) =
      (insDesc σ x l).map (fun t => (t, σ t)) := by
  induction l with
  | nil => rfl
  | cons y ys ih =>
    by_cases h : σ y ≤ σ x
    · simp [insDesc, h]
    · simp [insDesc, h, ih]

theorem map_fst_pair (σ : α → Nat) (L : List α) :
    L.map ((fun (p : α × Nat) => p.1) ∘ fun t => (t, σ t)) = L := by
  induction L with
  | nil => rfl
  | cons a b ih => simp [ih]

theorem sortDesc_map_pair (σ : α → Nat) (l : List α) :
    sortDesc (fun p => p.2) (l.map (fun t => (t, σ t))) =
      (sortDesc σ l).map (fun t => (t, σ t)) := by
  induction l with
  | nil => rfl
  | cons x xs ih =>
    show insDesc (fun p => p.2) (x, σ x) (sortDesc _ (xs.map _)) = _
    rw [ih, insDesc_map_pair]
    rfl

/-! ## Score computation lemmas -/

theorem bind_ok_inv {α β : Type} {e : Except String α} {f : α → Except String β}
    {b : β} (h : (e >>= f) = .ok b) : ∃ a, e = .ok a ∧ f a = .ok b := by
  cases e with
  | error err =>
    exact absurd h (by simp [Bind.bind, Except.bind])
  | ok a =>
    exact ⟨a, rfl, by simpa [Bind.bind, Except.bind] using h⟩

theorem mapScores_ok (r : String → String → Nat) (qL : String) :
    ∀ (ts : List Tool) (keyed : List (Tool × Nat)),
    mapScores r qL ts = .ok keyed →
    keyed = ts.map (fun t => (t, fuzzyKey r qL t)) ∧
    ∀ t ∈ ts, score_tool r qL t = .ok (fuzzyKey r qL t) := by
  intro ts
  induction ts with
  | nil =>
    intro keyed h
    cases h
    exact ⟨rfl, by simp⟩
  | cons t rest ih =>
    intro keyed h
    rw [mapScores] at h
    obtain ⟨v, hv, h2⟩ := bind_ok_inv h
    obtain ⟨lrest, hl, h3⟩ := bind_ok_inv h2
    have hk : keyed = (t, v) :: lrest := by
      simpa [pure, Except.pure] using h3.symm
    obtain ⟨h1, hsc⟩ := ih lrest hl
    have hfk : fuzzyKey r qL t = v := by
      unfold fuzzyKey
      rw [hv]
    subst hk
    constructor
    · simp [h1, hfk]
    · intro t2 ht2
      rcases List.mem_cons.mp ht2 with rfl | ht3
      · rw [hv, hfk]
      · exact hsc t2 ht3

theorem pyJoin_ok (l : List Json) (h : ∀ j ∈ l, ∃ s, j = Json.str s) :
    ∃ out, pyJoinSpace l = .ok out := by
  induction l with
  | nil => exact ⟨"", rfl⟩
  | cons j rest ih =>
    obtain ⟨s, rfl⟩ := h j (List.mem_cons_self _ _)
    cases rest with
    | nil => exact ⟨s, rfl⟩
    | cons j2 r2 =>
      obtain ⟨out, hout⟩ := ih (fun x hx => h x (List.mem_cons_of_mem _ hx))
      exact ⟨s ++ " " ++ out, by rw [pyJoinSpace, hout]; rfl⟩

theorem mapScores_total (r : String → String → Nat) (qL : String)
    (ts : List Tool) (h : ∀ t ∈ ts, ∀ kj ∈ t.keywords, ∃ s, kj = Json.str s) :
    ∃ keyed, mapScores r qL ts = .ok keyed := by
  induction ts with
  | nil => exact ⟨[], rfl⟩
  | cons t rest ih =>
    obtain ⟨kj, hkj⟩ := pyJoin_ok t.keywords (h t (List.mem_cons_self _ _))
    obtain ⟨keyed, hk⟩ := ih (fun x hx => h x (List.mem_cons_of_mem _ hx))
    refine ⟨(t, r qL (pyLower (t.name ++ " " ++ t.description ++ " " ++ kj ++
      " " ++ t.category))) :: keyed, ?_⟩
    rw [mapScores, score_tool]
    simp only [Except.bind, bind, hkj]
    rw [hk]
    rfl

/-! ## C4 — the fuzzy fallback: gating, ranking, stability -/

/-- C4: whenever the search flow displays the fuzzy fallback, the exact
substring phase returned zero results; and the fallback list is the 5-prefix
of a ranking of the whole catalog by descending fuzzy score of the
lowercased `name description keywords category` concatenation (every score
computed successfully), with ties kept in original catalog order (the filter
equality: entries of any fixed score appear exactly in catalog order). -/
theorem c4_fallback_only_when_exact_empty (r : String → String → Nat)
    (env : GptEnv) (q : String) (ts : List Tool) (l : List Tool)
    (h : searchFlow r env q ts = .ok (.fallback l)) :
    exact_matches (pyLower q) ts = .ok [] ∧
    (∀ t ∈ ts, score_tool r (pyLower q) t = .ok (fuzzyKey r (pyLower q) t)) ∧
    (sortDesc (fuzzyKey r (pyLower q)) ts).Perm ts ∧
    List.Sorted (fun a b => fuzzyKey r (pyLower q) b ≤ fuzzyKey r (pyLower q) a)
      (sortDesc (fuzzyKey r (pyLower q)) ts) ∧
    (∀ v, (sortDesc (fuzzyKey r (pyLower q)) ts).filter
        (fun t => fuzzyKey r (pyLower q) t == v) =
      ts.filter (fun t => fuzzyKey r (pyLower q) t == v)) ∧
    l = (sortDesc (fuzzyKey r (pyLower q)) ts).take 5 := by
  have hsm : exact_matches (pyLower q) ts = .ok [] ∧
      smart_results r (pyLower q) ts = .ok l := by
    unfold searchFlow at h
    by_cases hts : ts.isEmpty
    · rw [if_pos hts] at h
      cases h
    · rw [if_neg hts] at h
      split at h
      · cases h
      next em heq =>
        split at h
        · cases h
        next hne =>
          have hem0 : em = [] := by
            cases em with
            | nil => rfl
            | cons a b => simp at hne
          subst hem0
          split at h
          · split at h
            · split at h
              · cases h
              · split at h
                next l2 hs =>
                  injection h with h2
                  injection h2 with h3
                  exact ⟨heq, by rw [hs, h3]⟩
                · cases h
            · split at h
              next l2 hs =>
                injection h with h2
                injection h2 with h3
                exact ⟨heq, by rw [hs, h3]⟩
              · cases h
          · split at h
            next l2 hs =>
              injection h with h2
              injection h2 with h3
              exact ⟨heq, by rw [hs, h3]⟩
            · cases h
  obtain ⟨hem, hs⟩ := hsm
  cases hk : mapScores r (pyLower q) ts with
  | error e =>
    rw [smart_results, hk] at hs
    cases hs
  | ok keyed =>
    obtain ⟨hshape, hscores⟩ := mapScores_ok r (pyLower q) ts keyed hk
    have hl : l = (sortDesc (fuzzyKey r (pyLower q)) ts).take 5 := by
      rw [smart_results] at hs
      obtain ⟨keyed2, hk2, h3⟩ := bind_ok_inv hs
      rw [hk] at hk2
      cases hk2
      have h4 : l = ((sortDesc (fun p => p.2) keyed).map (fun p => p.1)).take 5 := by
        simpa [pure, Except.pure] using h3.symm
      rw [h4, hshape, sortDesc_map_pair, List.map_map, map_fst_pair]
    exact ⟨hem, hscores, sortDesc_perm _ _, sortDesc_sorted _ _,
      fun v => sortDesc_filter _ _ _, hl⟩

/-- C4 witness: a query with no exact match on a concrete catalog reaches
the fallback, and the exact phase indeed returned zero results. -/
theorem c4_witness :
    searchFlow rZero gOff "zz" tCat = .ok (.fallback tCat) ∧
    exact_matches (pyLower "zz") tCat = .ok [] :=
  ⟨rfl, (c4_fallback_only_when_exact_empty rZero gOff "zz" tCat tCat rfl).1⟩

/-! ## C9 — the fallback size depends only on the catalog size -/

/-- C9: for any score function at all (in particular however low the
similarity), on a catalog whose keywords are strings the fuzzy fallback
succeeds and returns exactly `min 5 (catalog size)` entries — hence never an
empty list on a non-empty catalog. -/
theorem c9_fallback_size (r : String → String → Nat) (qL : String)
    (ts : List Tool)
    (h : ∀ t ∈ ts, ∀ kj ∈ t.keywords, ∃ s, kj = Json.str s) :
    ∃ l, smart_results r qL ts = .ok l ∧ l.length = min 5 ts.length ∧
      (ts ≠ [] → l ≠ []) := by
  obtain ⟨keyed, hk⟩ := mapScores_total r qL ts h
  obtain ⟨hshape, _⟩ := mapScores_ok r qL ts keyed hk
  refine ⟨((sortDesc (fun p => p.2) keyed).map (fun p => p.1)).take 5, ?_, ?_, ?_⟩
  · rw [smart_results, hk]
    rfl
  · rw [List.length_take, List.length_map,
      List.Perm.length_eq (sortDesc_perm _ _), hshape, List.length_map]
  · intro hne hl
    have h0 := congrArg List.length hl
    rw [List.length_take, List.length_map,
      List.Perm.length_eq (sortDesc_perm _ _), hshape, List.length_map] at h0
    have : 0 < ts.length := List.length_pos.mpr hne
    simp only [List.length_nil] at h0
    omega

/-- C9 witness: on the concrete two-entry catalog with the constant-zero
score, the fallback returns both entries. -/
theorem c9_witness :
    ∃ l, smart_results rZero "zz" tCat = .ok l ∧
      l.length = min 5 tCat.length ∧ (tCat ≠ [] → l ≠ []) :=
  c9_fallback_size rZero "zz" tCat (by
    intro t ht kj hkj
    simp only [tCat, List.mem_cons, List.not_mem_nil, or_false] at ht
    rcases ht with rfl | rfl
    · simp only [List.mem_cons, List.not_mem_nil, or_false] at hkj
      exact ⟨"ai", hkj⟩
    · simp at hkj)

/-! ## Extension relations: basic properties -/

theorem listLe_refl (a : List α) : ListLe a a := ⟨[], List.append_nil a⟩

theorem listLe_trans {a b c : List α} (h1 : ListLe a b) (h2 : ListLe b c) :
    ListLe a c := by
  obtain ⟨t1, rfl⟩ := h1
  obtain ⟨t2, rfl⟩ := h2
  exact ⟨t1 ++ t2, (List.append_assoc a t1 t2).symm⟩

theorem ListLe.append (a t : List α) : ListLe a (a ++ t) := ⟨t, rfl⟩

theorem annLe_refl (m : List (String × List Json)) : AnnLe m m := by
  induction m with
  | nil => exact AnnLe.nil []
  | cons p t ih =>
    have := AnnLe.cons p.1 p.2 p.2 t t (listLe_refl p.2) ih
    simpa using this

theorem annLe_trans {a b c : List (String × List Json)}
    (h1 : AnnLe a b) (h2 : AnnLe b c) : AnnLe a c := by
  induction h1 generalizing c with
  | nil => exact AnnLe.nil c
  | cons k l l2 t t2 hl ht ih =>
    cases h2 with
    | cons _ _ l3 _ t3 hl2 ht2 =>
      exact AnnLe.cons k l l3 t t3 (listLe_trans hl hl2) (ih ht2)

/-- Forget the goodness information of an `AnnExt`. -/
theorem AnnExt.toAnnLe {a b : List (String × List Json)} (h : AnnExt a b) :
    AnnLe a b := by
  induction h with
  | nil m _ => exact AnnLe.nil m
  | cons k l ex t t2 _ _ ih => exact AnnLe.cons k l (l ++ ex) t t2 ⟨ex, rfl⟩ ih

theorem annExt_refl (m : List (String × List Json)) : AnnExt m m := by
  induction m with
  | nil => exact AnnExt.nil [] (by simp)
  | cons p t ih =>
    have := AnnExt.cons p.1 p.2 [] t t (by simp) ih
    simpa using this

theorem AnnExt.all_good {a b : List (String × List Json)} (h : AnnExt a b)
    (ha : ∀ p ∈ a, ∀ c ∈ p.2, GoodC c) : ∀ p ∈ b, ∀ c ∈ p.2, GoodC c := by
  induction h with
  | nil m hm => exact hm
  | cons k l ex t t2 hex _ ih =>
    intro p hp c hc
    rcases List.mem_cons.mp hp with rfl | hp2
    · rcases List.mem_append.mp hc with hc1 | hc2
      · exact ha (k, l) (List.mem_cons_self _ _) c hc1
      · exact hex c hc2
    · exact ih (fun p2 hp2b => ha p2 (List.mem_cons_of_mem _ hp2b)) p hp2 c hc

theorem annExt_trans {a b c : List (String × List Json)}
    (h1 : AnnExt a b) (h2 : AnnExt b c) : AnnExt a c := by
  induction h1 generalizing c with
  | nil m hm => exact AnnExt.nil c (AnnExt.all_good h2 hm)
  | cons k l ex t t2 hex ht ih =>
    cases h2 with
    | cons _ _ ex2 _ t3 hex2 ht2 =>
      have := AnnExt.cons k l (ex ++ ex2) t t3
        (fun c hc => by
          rcases List.mem_append.mp hc with hc1 | hc2
          · exact hex c hc1
          · exact hex2 c hc2) (ih ht2)
      simpa [List.append_assoc] using this

theorem containsKey_mono {a b : List (String × List Json)} (h : AnnExt a b)
    (k : String) (hk : containsKey k a = true) : containsKey k b = true := by
  induction h with
  | nil m _ => simp [containsKey] at hk
  | cons k2 l ex t t2 _ _ ih =>
    simp only [containsKey, Bool.or_eq_true] at hk ⊢
    rcases hk with hk | hk
    · exact Or.inl hk
    · exact Or.inr (ih hk)

theorem getListD_mono {a b : List (String × List Json)} (h : AnnExt a b)
    (k : String) (hk : containsKey k a = true) :
    ∃ ex, getListD k b = getListD k a ++ ex ∧ ∀ c ∈ ex, GoodC c := by
  induction h with
  | nil m _ => simp [containsKey] at hk
  | cons k2 l ex t t2 hex ht ih =>
    by_cases hk2 : (k2 == k) = true
    · exact ⟨ex, by simp [getListD, hk2], hex⟩
    · simp only [containsKey, hk2, Bool.false_or] at hk
      obtain ⟨ex2, he, hg⟩ := ih hk
      exact ⟨ex2, by simp [getListD, hk2, he], hg⟩

theorem AnnExt.fresh (m : List (String × List Json)) (k : String)
    (l : List Json) (hk : containsKey k m = false)
    (hg : ∀ c ∈ l, GoodC c) : AnnExt m (m ++ [(k, l)]) := by
  induction m with
  | nil =>
    exact AnnExt.nil [(k, l)] (by
      intro p hp c hc
      rcases List.mem_cons.mp hp with rfl | hp2
      · exact hg c hc
      · simp at hp2)
  | cons p t ih =>
    cases hpk : (p.1 == k) with
    | true => simp [containsKey, hpk] at hk
    | false =>
      simp only [containsKey, hpk, Bool.false_or] at hk
      have := AnnExt.cons p.1 p.2 [] t (t ++ [(k, l)]) (by simp) (ih hk)
      simpa using this

theorem AnnExt.upd (m : List (String × List Json)) (k : String)
    (ex : List Json) (hk : containsKey k m = true)
    (hg : ∀ c ∈ ex, GoodC c) :
    AnnExt m (updFirst k (getListD k m ++ ex) m) := by
  induction m with
  | nil => simp [containsKey] at hk
  | cons p t ih =>
    by_cases hpk : (p.1 == k) = true
    · rw [show updFirst k (getListD k (p :: t) ++ ex) (p :: t) =
          (p.1, getListD k (p :: t) ++ ex) :: t by simp [updFirst, hpk]]
      rw [show getListD k (p :: t) = p.2 by simp [getListD, hpk]]
      exact AnnExt.cons p.1 p.2 ex t t hg (annExt_refl t)
    · simp only [containsKey, hpk, Bool.false_or] at hk
      rw [show updFirst k (getListD k (p :: t) ++ ex) (p :: t) =
          p :: updFirst k (getListD k t ++ ex) t by
          simp [updFirst, getListD, hpk]]
      have := AnnExt.cons p.1 p.2 [] t (updFirst k (getListD k t ++ ex) t)
        (by simp) (ih hk)
      simpa using this

theorem updFirst_self (m : List (String × List Json)) (k : String)
    (hk : containsKey k m = true) : updFirst k (getListD k m) m = m := by
  induction m with
  | nil => simp [containsKey] at hk
  | cons p t ih =>
    by_cases hpk : (p.1 == k) = true
    · simp [updFirst, getListD, hpk]
    · simp only [containsKey, hpk, Bool.false_or] at hk
      simp [updFirst, getListD, hpk, ih hk]

theorem getListD_updFirst_self (m : List (String × List Json)) (k : String)
    (v : List Json) (hk : containsKey k m = true) :
    getListD k (updFirst k v m) = v := by
  induction m with
  | nil => simp [containsKey] at hk
  | cons p t ih =>
    by_cases hpk : (p.1 == k) = true
    · simp [updFirst, getListD, hpk]
    · simp only [containsKey, hpk, Bool.false_or] at hk
      simp [updFirst, getListD, hpk, ih hk]

theorem containsKey_updFirst (m : List (String × List Json)) (k k2 : String)
    (v : List Json) : containsKey k2 (updFirst k v m) = containsKey k2 m := by
  induction m with
  | nil => rfl
  | cons p t ih =>
    by_cases hpk : (p.1 == k) = true
    · simp [updFirst, containsKey, hpk]
    · simp [updFirst, containsKey, hpk, ih]

/-! ## Duplicate-check lemmas -/

theorem collectIds_ok (l : List Json) (h : IdsOk l) :
    collectIds l = .ok (l.map cGetId) := by
  induction l with
  | nil => rfl
  | cons c rest ih =>
    obtain ⟨⟨es, rfl⟩, hh⟩ := h c (List.mem_cons_self _ _)
    rw [collectIds]
    rw [if_pos hh, ih (fun c2 h2 => h c2 (List.mem_cons_of_mem _ h2))]
    rfl

theorem collectIds_ok_inv (l : List Json) (ids : List (Option Json))
    (h : collectIds l = .ok ids) : IdsOk l ∧ ids = l.map cGetId := by
  induction l generalizing ids with
  | nil =>
    cases h
    exact ⟨by intro c hc; simp at hc, rfl⟩
  | cons c rest ih =>
    cases c with
    | obj es =>
      rw [collectIds] at h
      by_cases hh : pyHashableO (cGetId (Json.obj es)) = true
      · rw [if_pos hh] at h
        cases hr : collectIds rest with
        | error e => rw [hr] at h; cases h
        | ok ids2 =>
          rw [hr] at h
          simp only [Except.map_ok, Except.map] at h
          cases h
          obtain ⟨h1, h2⟩ := ih ids2 hr
          refine ⟨?_, by rw [h2]; rfl⟩
          intro c2 hc2
          rcases List.mem_cons.mp hc2 with rfl | hc3
          · exact ⟨⟨es, rfl⟩, hh⟩
          · exact h1 c2 hc3
      · rw [if_neg hh] at h
        cases h
    | null => simp [collectIds] at h
    | bool b => simp [collectIds] at h
    | num n => simp [collectIds] at h
    | str s => simp [collectIds] at h
    | arr l2 => simp [collectIds] at h

theorem pyEqO_refl_hashable (x : Option Json) (h : pyHashableO x = true) :
    pyEqO x x = true := by
  cases x with
  | none => rfl
  | some j =>
    cases j with
    | null => rfl
    | bool b => simp [pyEqO, pyEqB, toNum]
    | num n => simp [pyEqO, pyEqB, toNum]
    | str s => simp [pyEqO, pyEqB, toNum]
    | arr l => simp [pyHashableO, pyHashable] at h
    | obj m => simp [pyHashableO, pyHashable] at h

theorem pyEqO_hash_left (x y : Option Json) (h : pyEqO x y = true)
    (hy : pyHashableO y = true) : pyHashableO x = true := by
  cases x with
  | none => rfl
  | some a =>
    cases y with
    | none => simp [pyEqO] at h
    | some b =>
      cases a with
      | arr l =>
        cases b <;> simp [pyEqO, pyEqB, toNum] at h
      | obj m =>
        cases b <;> simp [pyEqO, pyEqB, toNum] at h
      | null => rfl
      | bool b2 => rfl
      | num n => rfl
      | str s => rfl

theorem memIds_append_left (x : Option Json) (ids more : List (Option Json))
    (h : memIds x ids = true) : memIds x (ids ++ more) = true := by
  simp only [memIds, List.any_eq_true] at h ⊢
  obtain ⟨i, hi, he⟩ := h
  exact ⟨i, List.mem_append_left _ hi, he⟩

theorem memIds_of_mem (c : Json) (l : List Json) (hc : c ∈ l)
    (hh : pyHashableO (cGetId c) = true) :
    memIds (cGetId c) (l.map cGetId) = true := by
  simp only [memIds, List.any_eq_true]
  exact ⟨cGetId c, List.mem_map_of_mem _ hc, pyEqO_refl_hashable _ hh⟩

/-! ## The inner annotation loop -/

theorem annotLoop_post (f1 f2 : String) :
    ∀ (cs cur : List Json) (n : Nat) (cur2 : List Json) (n2 : Nat),
    annotLoop f1 f2 cs cur n = (cur2, n2, none) →
    (∃ ex, cur2 = cur ++ ex ∧ ∀ c ∈ ex, GoodC c) ∧
    (∀ c ∈ cs, cEligible f1 f2 c = true →
      IdsOk cur2 ∧ memIds (cGetId c) (cur2.map cGetId) = true) := by
  intro cs
  induction cs with
  | nil =>
    intro cur n cur2 n2 h
    cases h
    exact ⟨⟨[], by simp⟩, by intro c hc; simp at hc⟩
  | cons c rest ih =>
    intro cur n cur2 n2 h
    rw [annotLoop] at h
    by_cases he : cEligible f1 f2 c = true
    · rw [if_pos he] at h
      split at h
      · cases h
      next ids hci =>
        obtain ⟨hIdsCur, rfl⟩ := collectIds_ok_inv cur ids hci
        by_cases hh : pyHashableO (cGetId c) = true
        · rw [if_pos hh] at h
          by_cases hm : memIds (cGetId c) (cur.map cGetId) = true
          · rw [if_pos hm] at h
            obtain ⟨⟨ex, rfl, hg⟩, hrest⟩ := ih cur n cur2 n2 h
            refine ⟨⟨ex, rfl, hg⟩, ?_⟩
            intro c2 hc2 he2
            rcases List.mem_cons.mp hc2 with rfl | hc3
            · refine ⟨?_, ?_⟩
              · intro z hz
                rcases List.mem_append.mp hz with hz1 | hz2
                · exact hIdsCur z hz1
                · exact hg z hz2
              · rw [List.map_append]
                exact memIds_append_left _ _ _ hm
            · exact hrest c2 hc3 he2
          · rw [if_neg hm] at h
            obtain ⟨⟨ex, hex, hg⟩, hrest⟩ := ih (cur ++ [c]) (n + 1) cur2 n2 h
            have hgc : GoodC c := by
              refine ⟨?_, hh⟩
              cases c with
              | obj es => exact ⟨es, rfl⟩
              | null => simp [cEligible] at he
              | bool b => simp [cEligible] at he
              | num n3 => simp [cEligible] at he
              | str s => simp [cEligible] at he
              | arr l => simp [cEligible] at he
            refine ⟨⟨[c] ++ ex, by simp [hex], ?_⟩, ?_⟩
            · intro z hz
              rcases List.mem_append.mp hz with hz1 | hz2
              · rw [List.mem_singleton.mp hz1]
                exact hgc
              · exact hg z hz2
            · intro c2 hc2 he2
              rcases List.mem_cons.mp hc2 with rfl | hc3
              · refine ⟨?_, ?_⟩
                · intro z hz
                  rw [hex] at hz
                  rcases List.mem_append.mp hz with hz1 | hz2
                  · rcases List.mem_append.mp hz1 with hz3 | hz4
                    · exact hIdsCur z hz3
                    · rw [List.mem_singleton.mp hz4]
                      exact hgc
                  · exact hg z hz2
                · rw [hex, List.map_append]
                  refine memIds_append_left _ _ _ ?_
                  rw [List.map_append]
                  simp only [memIds, List.any_append, Bool.or_eq_true]
                  right
                  simp [memIds, List.map, pyEqO_refl_hashable _ hh]
              · exact hrest c2 hc3 he2
        · rw [if_neg hh] at h
          cases h
    · rw [if_neg he] at h
      obtain ⟨hext, hrest⟩ := ih cur n cur2 n2 h
      refine ⟨hext, ?_⟩
      intro c2 hc2 he2
      rcases List.mem_cons.mp hc2 with rfl | hc3
      · exact absurd he2 he
      · exact hrest c2 hc3 he2

theorem annotLoop_idem (f1 f2 : String) :
    ∀ (cs cur : List Json) (n : Nat),
    (∀ c ∈ cs, cEligible f1 f2 c = true →
      IdsOk cur ∧ memIds (cGetId c) (cur.map cGetId) = true) →
    annotLoop f1 f2 cs cur n = (cur, n, none) := by
  intro cs
  induction cs with
  | nil => intro cur n _; rfl
  | cons c rest ih =>
    intro cur n hsat
    rw [annotLoop]
    by_cases he : cEligible f1 f2 c = true
    · rw [if_pos he]
      obtain ⟨hids, hmem⟩ := hsat c (List.mem_cons_self _ _) he
      have hh : pyHashableO (cGetId c) = true := by
        simp only [memIds, List.any_eq_true] at hmem
        obtain ⟨i, hi, he2⟩ := hmem
        obtain ⟨c2, hc2, rfl⟩ := List.mem_map.mp hi
        exact pyEqO_hash_left _ _ he2 (hids c2 hc2).2
      rw [collectIds_ok cur hids]
      show (if pyHashableO (cGetId c) = true then
          if memIds (cGetId c) (cur.map cGetId) = true then
            annotLoop f1 f2 rest cur n
          else annotLoop f1 f2 rest (cur ++ [c]) (n + 1)
        else (cur, n, some "TypeError: unhashable type")) = (cur, n, none)
      rw [if_pos hh, if_pos hmem]
      exact ih cur n (fun c2 h2 => hsat c2 (List.mem_cons_of_mem _ h2))
    · rw [if_neg he]
      exact ih cur n (fun c2 h2 => hsat c2 (List.mem_cons_of_mem _ h2))

/-! ## The per-document annotation merge -/

theorem satEntry_mono {f1 f2 k : String} {cs : List Json}
    {m m2 : List (String × List Json)} (h : SatEntry f1 f2 k cs m)
    (hext : AnnExt m m2) : SatEntry f1 f2 k cs m2 := by
  obtain ⟨hk, hall⟩ := h
  refine ⟨containsKey_mono hext k hk, ?_⟩
  intro c hc he
  obtain ⟨hids, hmem⟩ := hall c hc he
  obtain ⟨ex, hge, hgood⟩ := getListD_mono hext k hk
  rw [hge]
  constructor
  · intro z hz
    rcases List.mem_append.mp hz with hz1 | hz2
    · exact hids z hz1
    · exact hgood z hz2
  · rw [List.map_append]
    exact memIds_append_left _ _ _ hmem

theorem satA_mono {f1 f2 : String} {entries : List (String × Json)}
    {m m2 : List (String × List Json)} (h : SatA f1 f2 entries m)
    (hext : AnnExt m m2) : SatA f1 f2 entries m2 :=
  fun p hp cs hcs => satEntry_mono (h p hp cs hcs) hext

theorem annotSec_post (f1 f2 : String) :
    ∀ (entries : List (String × Json)) (m : List (String × List Json))
      (n : Nat) (m2 : List (String × List Json)) (n2 : Nat),
    annotSec f1 f2 entries m n = (m2, n2, none) →
    AnnExt m m2 ∧ SatA f1 f2 entries m2 := by
  intro entries
  induction entries with
  | nil =>
    intro m n m2 n2 h
    cases h
    exact ⟨annExt_refl m, by intro p hp; simp at hp⟩
  | cons p rest ih =>
    intro m n m2 n2 h
    obtain ⟨k, v⟩ := p
    cases v with
    | arr cs =>
      replace h : (match annotLoop f1 f2 cs
          (getListD k (if containsKey k m then m else m ++ [(k, [])])) 0 with
        | (cur, dn, none) => annotSec f1 f2 rest
            (updFirst k cur (if containsKey k m then m else m ++ [(k, [])]))
            (n + dn)
        | (_, dn, some e) => (m, n + dn, some e)) = (m2, n2, none) := h
      split at h
      next cur dn hloop =>
        have hm1 : AnnExt m (if containsKey k m then m else m ++ [(k, [])]) := by
          by_cases hk : containsKey k m = true
          · rw [if_pos hk]
            exact annExt_refl m
          · rw [if_neg hk]
            exact AnnExt.fresh m k [] (by simpa using hk) (by simp)
        set m1 := if containsKey k m then m else m ++ [(k, [])] with hm1def
        have hkm1 : containsKey k m1 = true := by
          by_cases hk : containsKey k m = true
          · rw [hm1def, if_pos hk]
            exact hk
          · rw [hm1def, if_neg hk]
            clear hm1def hm1 hloop h
            induction m with
            | nil => simp [containsKey]
            | cons q t ihq =>
              cases hqk : (q.1 == k) with
              | true => simp [containsKey, hqk] at hk
              | false =>
                simp only [containsKey, hqk, Bool.false_or] at hk ⊢
                exact ihq hk
        obtain ⟨⟨ex, hcur, hgood⟩, hsat⟩ :=
          annotLoop_post f1 f2 cs (getListD k m1) 0 cur dn hloop
        have hupd : AnnExt m1 (updFirst k cur m1) := by
          rw [hcur]
          exact AnnExt.upd m1 k ex hkm1 hgood
        obtain ⟨hext2, hsat2⟩ := ih (updFirst k cur m1) (n + dn) m2 n2 h
        have hextAll : AnnExt m m2 :=
          annExt_trans (annExt_trans hm1 hupd) hext2
        refine ⟨hextAll, ?_⟩
        intro q hq cs2 hcs2
        rcases List.mem_cons.mp hq with rfl | hq2
        · simp only at hcs2
          cases hcs2
          have hse : SatEntry f1 f2 k cs (updFirst k cur m1) := by
            refine ⟨by rw [containsKey_updFirst]; exact hkm1, ?_⟩
            intro c hc he
            rw [getListD_updFirst_self m1 k cur hkm1]
            exact hsat c hc he
          exact satEntry_mono hse hext2
        · exact hsat2 q hq2 cs2 hcs2
      · cases h
    | null =>
      replace h : annotSec f1 f2 rest m n = (m2, n2, none) := h
      obtain ⟨hext, hsat⟩ := ih m n m2 n2 h
      exact ⟨hext, by
        intro q hq cs2 hcs2
        rcases List.mem_cons.mp hq with rfl | hq2
        · cases hcs2
        · exact hsat q hq2 cs2 hcs2⟩
    | bool b =>
      replace h : annotSec f1 f2 rest m n = (m2, n2, none) := h
      obtain ⟨hext, hsat⟩ := ih m n m2 n2 h
      exact ⟨hext, by
        intro q hq cs2 hcs2
        rcases List.mem_cons.mp hq with rfl | hq2
        · cases hcs2
        · exact hsat q hq2 cs2 hcs2⟩
    | num n3 =>
      replace h : annotSec f1 f2 rest m n = (m2, n2, none) := h
      obtain ⟨hext, hsat⟩ := ih m n m2 n2 h
      exact ⟨hext, by
        intro q hq cs2 hcs2
        rcases List.mem_cons.mp hq with rfl | hq2
        · cases hcs2
        · exact hsat q hq2 cs2 hcs2⟩
    | str s =>
      replace h : annotSec f1 f2 rest m n = (m2, n2, none) := h
      obtain ⟨hext, hsat⟩ := ih m n m2 n2 h
      exact ⟨hext, by
        intro q hq cs2 hcs2
        rcases List.mem_cons.mp hq with rfl | hq2
        · cases hcs2
        · exact hsat q hq2 cs2 hcs2⟩
    | obj o =>
      replace h : annotSec f1 f2 rest m n = (m2, n2, none) := h
      obtain ⟨hext, hsat⟩ := ih m n m2 n2 h
      exact ⟨hext, by
        intro q hq cs2 hcs2
        rcases List.mem_cons.mp hq with rfl | hq2
        · cases hcs2
        · exact hsat q hq2 cs2 hcs2⟩

theorem annotSec_idem (f1 f2 : String) :
    ∀ (entries : List (String × Json)) (m : List (String × List Json))
      (n : Nat), SatA f1 f2 entries m →
    annotSec f1 f2 entries m n = (m, n, none) := by
  intro entries
  induction entries with
  | nil => intro m n _; rfl
  | cons p rest ih =>
    intro m n hsat
    obtain ⟨k, v⟩ := p
    cases v with
    | arr cs =>
      obtain ⟨hk, hall⟩ := hsat (k, Json.arr cs) (List.mem_cons_self _ _) cs rfl
      show (match annotLoop f1 f2 cs
          (getListD k (if containsKey k m then m else m ++ [(k, [])])) 0 with
        | (cur, dn, none) => annotSec f1 f2 rest
            (updFirst k cur (if containsKey k m then m else m ++ [(k, [])]))
            (n + dn)
        | (_, dn, some e) => (m, n + dn, some e)) = (m, n, none)
      rw [if_pos hk]
      rw [annotLoop_idem f1 f2 cs (getListD k m) 0 hall]
      show annotSec f1 f2 rest (updFirst k (getListD k m) m) (n + 0) = (m, n, none)
      rw [updFirst_self m k hk]
      have := ih m (n + 0) (fun q hq cs2 hcs2 =>
        hsat q (List.mem_cons_of_mem _ hq) cs2 hcs2)
      simpa using this
    | null => exact ih m n (fun q hq cs2 hcs2 =>
        hsat q (List.mem_cons_of_mem _ hq) cs2 hcs2)
    | bool b => exact ih m n (fun q hq cs2 hcs2 =>
        hsat q (List.mem_cons_of_mem _ hq) cs2 hcs2)
    | num n3 => exact ih m n (fun q hq cs2 hcs2 =>
        hsat q (List.mem_cons_of_mem _ hq) cs2 hcs2)
    | str s => exact ih m n (fun q hq cs2 hcs2 =>
        hsat q (List.mem_cons_of_mem _ hq) cs2 hcs2)
    | obj o => exact ih m n (fun q hq cs2 hcs2 =>
        hsat q (List.mem_cons_of_mem _ hq) cs2 hcs2)

/-! ## The comments / links sections -/

theorem importCommentsSec_err (d : Json) (s s2 : St) (n : Nat) (e : String)
    (h : importCommentsSec d s = (s2, n, some e)) : s2 = s := by
  unfold importCommentsSec at h
  split at h
  · split at h
    · cases h
    · cases h
      rfl
  · cases h

theorem importCommentsSec_post (d : Json) (s s2 : St) (n : Nat)
    (h : importCommentsSec d s = (s2, n, none)) :
    s2.tools = s.tools ∧ s2.links = s.links ∧
    AnnExt s.comments s2.comments ∧
    SatA "author" "content" (docCommentsOf d) s2.comments := by
  unfold importCommentsSec at h
  split at h
  next entries heq =>
    rcases hA : annotSec "author" "content" entries s.comments 0 with ⟨m2, n2, er⟩
    rw [hA] at h
    cases er with
    | none =>
      replace h : ({ s with comments := m2 }, n2, (none : Option String)) =
        (s2, n, none) := h
      cases h
      obtain ⟨hext, hsat⟩ := annotSec_post "author" "content" entries
        s.comments 0 _ _ hA
      have hdoc : docCommentsOf d = entries := by
        unfold docCommentsOf
        rw [heq]
      exact ⟨rfl, rfl, hext, by rw [hdoc]; exact hsat⟩
    | some e =>
      replace h : (s, n2, some e) = (s2, n, (none : Option String)) := h
      cases h
  next hne =>
    cases h
    have hdoc : docCommentsOf d = [] := by
      unfold docCommentsOf
      cases hjg : jGet d "comments" with
      | none => rfl
      | some j =>
        cases j with
        | obj es => exact absurd hjg (by intro hc; exact hne es hc)
        | null => rfl
        | bool b => rfl
        | num n2 => rfl
        | str s3 => rfl
        | arr l => rfl
    exact ⟨rfl, rfl, annExt_refl _, by rw [hdoc]; intro p hp; simp at hp⟩

theorem importCommentsSec_idem (d : Json) (s : St)
    (hsat : SatA "author" "content" (docCommentsOf d) s.comments) :
    importCommentsSec d s = (s, 0, none) := by
  unfold importCommentsSec
  split
  next entries heq =>
    have hdoc : docCommentsOf d = entries := by
      unfold docCommentsOf
      rw [heq]
    rw [annotSec_idem "author" "content" entries s.comments 0
      (by rw [hdoc] at hsat; exact hsat)]
  next hne => rfl

theorem importLinksSec_err (d : Json) (s s2 : St) (n : Nat) (e : String)
    (h : importLinksSec d s = (s2, n, some e)) : s2 = s := by
  unfold importLinksSec at h
  split at h
  · split at h
    · cases h
    · cases h
      rfl
  · cases h

theorem importLinksSec_post (d : Json) (s s2 : St) (n : Nat)
    (h : importLinksSec d s = (s2, n, none)) :
    s2.tools = s.tools ∧ s2.comments = s.comments ∧
    AnnExt s.links s2.links ∧
    SatA "title" "url" (docLinksOf d) s2.links := by
  unfold importLinksSec at h
  split at h
  next entries heq =>
    rcases hA : annotSec "title" "url" entries s.links 0 with ⟨m2, n2, er⟩
    rw [hA] at h
    cases er with
    | none =>
      replace h : ({ s with links := m2 }, n2, (none : Option String)) =
        (s2, n, none) := h
      cases h
      obtain ⟨hext, hsat⟩ := annotSec_post "title" "url" entries
        s.links 0 _ _ hA
      have hdoc : docLinksOf d = entries := by
        unfold docLinksOf
        rw [heq]
      exact ⟨rfl, rfl, hext, by rw [hdoc]; exact hsat⟩
    | some e =>
      replace h : (s, n2, some e) = (s2, n, (none : Option String)) := h
      cases h
  next hne =>
    cases h
    have hdoc : docLinksOf d = [] := by
      unfold docLinksOf
      cases hjg : jGet d "external_links" with
      | none => rfl
      | some j =>
        cases j with
        | obj es => exact absurd hjg (by intro hc; exact hne es hc)
        | null => rfl
        | bool b => rfl
        | num n2 => rfl
        | str s3 => rfl
        | arr l => rfl
    exact ⟨rfl, rfl, annExt_refl _, by rw [hdoc]; intro p hp; simp at hp⟩

theorem importLinksSec_idem (d : Json) (s : St)
    (hsat : SatA "title" "url" (docLinksOf d) s.links) :
    importLinksSec d s = (s, 0, none) := by
  unfold importLinksSec
  split
  next entries heq =>
    have hdoc : docLinksOf d = entries := by
      unfold docLinksOf
      rw [heq]
    rw [annotSec_idem "title" "url" entries s.links 0
      (by rw [hdoc] at hsat; exact hsat)]
  next hne => rfl

/-! ## The tools section -/

/-- Normalization is insensitive to the clock except in `added_at`. -/
theorem normTool_now (now now2 : String) (t : Json) :
    (∃ e, normTool now t = .error e ∧ normTool now2 t = .error e) ∨
    (∃ a b, normTool now t = .ok a ∧ normTool now2 t = .ok b ∧
      a.id = b.id) := by
  unfold normTool
  cases h : normChecked t with
  | error e => exact Or.inl ⟨e, rfl, rfl⟩
  | ok q =>
    obtain ⟨name, link, desc, cat, price⟩ := q
    exact Or.inr ⟨_, _, rfl, rfl, rfl⟩

theorem contains_of_listLe {a b : List String} (h : ListLe a b) {x : String}
    (hx : a.contains x = true) : b.contains x = true := by
  obtain ⟨t, rfl⟩ := h
  rw [List.elem_iff] at hx ⊢
  exact List.mem_append_left _ hx

theorem toolsLoop_post (now : String) :
    ∀ (ts : List Json) (db : List Tool) (n : Nat) (db2 : List Tool) (n2 : Nat),
    toolsLoop now ts db (db.map (·.id)) n = (db2, n2, none) →
    ListLe db db2 ∧ ∀ t ∈ ts, tEligible t = true →
      ∃ nt, normTool now t = .ok nt ∧
        (db2.map (·.id)).contains nt.id = true := by
  intro ts
  induction ts with
  | nil =>
    intro db n db2 n2 h
    cases h
    exact ⟨listLe_refl _, by intro t ht; simp at ht⟩
  | cons t rest ih =>
    intro db n db2 n2 h
    rw [toolsLoop] at h
    by_cases he : tEligible t = true
    · rw [if_pos he] at h
      split at h
      · cases h
      next nt hnt =>
        by_cases hc : (List.map (·.id) db).contains nt.id = true
        · rw [if_pos hc] at h
          obtain ⟨hle, hrest⟩ := ih db n db2 n2 h
          refine ⟨hle, ?_⟩
          intro t2 ht2 he2
          rcases List.mem_cons.mp ht2 with rfl | ht3
          · exact ⟨nt, hnt, contains_of_listLe (by
              obtain ⟨tl, rfl⟩ := hle
              rw [List.map_append]
              exact ListLe.append _ _) hc⟩
          · exact hrest t2 ht3 he2
        · rw [if_neg hc] at h
          rw [show List.map (·.id) db ++ [nt.id] =
            List.map (·.id) (db ++ [nt]) by simp] at h
          obtain ⟨hle, hrest⟩ := ih (db ++ [nt]) (n + 1) db2 n2 h
          refine ⟨listLe_trans (ListLe.append db [nt]) hle, ?_⟩
          intro t2 ht2 he2
          rcases List.mem_cons.mp ht2 with rfl | ht3
          · refine ⟨nt, hnt, contains_of_listLe (by
              obtain ⟨tl, rfl⟩ := hle
              rw [List.map_append]
              exact ListLe.append _ _) ?_⟩
            rw [List.elem_iff]
            simp
          · exact hrest t2 ht3 he2
    · rw [if_neg he] at h
      obtain ⟨hle, hrest⟩ := ih db n db2 n2 h
      refine ⟨hle, ?_⟩
      intro t2 ht2 he2
      rcases List.mem_cons.mp ht2 with rfl | ht3
      · exact absurd he2 he
      · exact hrest t2 ht3 he2

theorem toolsLoop_idem (now : String) :
    ∀ (ts : List Json) (db : List Tool) (ex : List String) (n : Nat),
    (∀ t ∈ ts, tEligible t = true →
      ∃ nt, normTool now t = .ok nt ∧ ex.contains nt.id = true) →
    toolsLoop now ts db ex n = (db, n, none) := by
  intro ts
  induction ts with
  | nil => intro db ex n _; rfl
  | cons t rest ih =>
    intro db ex n hsat
    rw [toolsLoop]
    by_cases he : tEligible t = true
    · rw [if_pos he]
      obtain ⟨nt, hnt, hc⟩ := hsat t (List.mem_cons_self _ _) he
      rw [hnt]
      show (if ex.contains nt.id = true then toolsLoop now rest db ex n
        else toolsLoop now rest (db ++ [nt]) (ex ++ [nt.id]) (n + 1)) =
        (db, n, none)
      rw [if_pos hc]
      exact ih db ex n (fun t2 h2 => hsat t2 (List.mem_cons_of_mem _ h2))
    · rw [if_neg he]
      exact ih db ex n (fun t2 h2 => hsat t2 (List.mem_cons_of_mem _ h2))

theorem toolsLoop_now (now now2 : String) :
    ∀ (ts : List Json) (db db2 : List Tool) (ex : List String) (n : Nat),
    db.map (·.id) = db2.map (·.id) →
    (toolsLoop now ts db ex n).2 = (toolsLoop now2 ts db2 ex n).2 ∧
    (toolsLoop now ts db ex n).1.map (·.id) =
      (toolsLoop now2 ts db2 ex n).1.map (·.id) := by
  intro ts
  induction ts with
  | nil =>
    intro db db2 ex n hid
    exact ⟨rfl, hid⟩
  | cons t rest ih =>
    intro db db2 ex n hid
    by_cases he : tEligible t = true
    · rw [toolsLoop, toolsLoop, if_pos he, if_pos he]
      rcases normTool_now now now2 t with ⟨e, h1, h2⟩ | ⟨a, b, h1, h2, hab⟩
      · rw [h1, h2]
        exact ⟨rfl, hid⟩
      · rw [h1, h2]
        show ((if ex.contains a.id = true then toolsLoop now rest db ex n
            else toolsLoop now rest (db ++ [a]) (ex ++ [a.id]) (n + 1)).2 =
          (if ex.contains b.id = true then toolsLoop now2 rest db2 ex n
            else toolsLoop now2 rest (db2 ++ [b]) (ex ++ [b.id]) (n + 1)).2) ∧
          ((if ex.contains a.id = true then toolsLoop now rest db ex n
            else toolsLoop now rest (db ++ [a]) (ex ++ [a.id]) (n + 1)).1.map (·.id) =
          (if ex.contains b.id = true then toolsLoop now2 rest db2 ex n
            else toolsLoop now2 rest (db2 ++ [b]) (ex ++ [b.id]) (n + 1)).1.map (·.id))
        rw [hab]
        by_cases hc : ex.contains b.id = true
        · rw [if_pos hc, if_pos hc]
          exact ih db db2 ex n hid
        · rw [if_neg hc, if_neg hc]
          exact ih (db ++ [a]) (db2 ++ [b]) (ex ++ [b.id]) (n + 1)
            (by simp [hid, hab])
    · rw [toolsLoop, toolsLoop, if_neg he, if_neg he]
      exact ih db db2 ex n hid

theorem importToolsSec_err (now : String) (d : Json) (s s2 : St) (n : Nat)
    (e : String) (h : importToolsSec now d s = (s2, n, some e)) : s2 = s := by
  unfold importToolsSec at h
  split at h
  · split at h
    · cases h
    · cases h
      rfl
  · cases h

theorem importToolsSec_post (now : String) (d : Json) (s s2 : St) (n : Nat)
    (h : importToolsSec now d s = (s2, n, none)) :
    s2.comments = s.comments ∧ s2.links = s.links ∧ ListLe s.tools s2.tools ∧
    ∀ t ∈ docToolsOf d, tEligible t = true →
      ∃ nt, normTool now t = .ok nt ∧
        (s2.tools.map (·.id)).contains nt.id = true := by
  unfold importToolsSec at h
  split at h
  next ts heq =>
    rcases hA : toolsLoop now ts s.tools (s.tools.map (·.id)) 0 with ⟨db, n2, er⟩
    rw [hA] at h
    cases er with
    | none =>
      replace h : ({ s with tools := db }, n2, (none : Option String)) =
        (s2, n, none) := h
      cases h
      obtain ⟨hle, hsat⟩ := toolsLoop_post now ts s.tools 0 _ _ hA
      have hdoc : docToolsOf d = ts := by
        unfold docToolsOf
        rw [heq]
      exact ⟨rfl, rfl, hle, by rw [hdoc]; exact hsat⟩
    | some e =>
      replace h : (s, n2, some e) = (s2, n, (none : Option String)) := h
      cases h
  next hne =>
    cases h
    have hdoc : docToolsOf d = [] := by
      unfold docToolsOf
      cases hjg : jGet d "tools" with
      | none => rfl
      | some j =>
        cases j with
        | arr l => exact absurd hjg (by intro hc; exact hne l hc)
        | null => rfl
        | bool b => rfl
        | num n2 => rfl
        | str s3 => rfl
        | obj o => rfl
    exact ⟨rfl, rfl, listLe_refl _, by rw [hdoc]; intro t ht; simp at ht⟩

theorem importToolsSec_idem (now : String) (d : Json) (s : St)
    (hsat : ∀ t ∈ docToolsOf d, tEligible t = true →
      ∃ nt, normTool now t = .ok nt ∧
        (s.tools.map (·.id)).contains nt.id = true) :
    importToolsSec now d s = (s, 0, none) := by
  unfold importToolsSec
  split
  next ts heq =>
    have hdoc : docToolsOf d = ts := by
      unfold docToolsOf
      rw [heq]
    rw [toolsLoop_idem now ts s.tools (s.tools.map (·.id)) 0
      (by rw [hdoc] at hsat; exact hsat)]
  next hne => rfl

theorem importToolsSec_now (now now2 : String) (d : Json) (s : St) :
    (importToolsSec now d s).2 = (importToolsSec now2 d s).2 := by
  unfold importToolsSec
  split
  next ts heq =>
    obtain ⟨h2, _⟩ := toolsLoop_now now now2 ts s.tools s.tools
      (s.tools.map (·.id)) 0 rfl
    rcases hA : toolsLoop now ts s.tools (s.tools.map (·.id)) 0 with ⟨db, n1, e1⟩
    rcases hB : toolsLoop now2 ts s.tools (s.tools.map (·.id)) 0 with ⟨db2, n2, e2⟩
    rw [hA, hB] at h2
    dsimp only at h2
    cases h2
    rw [hA, hB]
    cases e1 with
    | none => rfl
    | some e => rfl
  next hne => rfl

/-! ## Driver reduction helpers -/

theorem import_obj_red (now : String) (o : List (String × Json)) (s : St) :
    import_all_data now (Json.obj o) s =
      (match importToolsSec now (Json.obj o) s with
       | (s1, n1, some e) =>
         (s1, ⟨n1, 0, 0, versionErrs (Json.obj o) ++ [mergeErr e]⟩)
       | (s1, n1, none) =>
         match importCommentsSec (Json.obj o) s1 with
         | (s2, n2, some e) =>
           (s2, ⟨n1, n2, 0, versionErrs (Json.obj o) ++ [mergeErr e]⟩)
         | (s2, n2, none) =>
           match importLinksSec (Json.obj o) s2 with
           | (s3, n3, some e) =>
             (s3, ⟨n1, n2, n3, versionErrs (Json.obj o) ++ [mergeErr e]⟩)
           | (s3, n3, none) => (s3, ⟨n1, n2, n3, versionErrs (Json.obj o)⟩)) :=
  rfl

theorem import_red_terr (now : String) (o : List (String × Json)) (s s1 : St)
    (n1 : Nat) (e : String)
    (hT : importToolsSec now (Json.obj o) s = (s1, n1, some e)) :
    import_all_data now (Json.obj o) s =
      (s1, ⟨n1, 0, 0, versionErrs (Json.obj o) ++ [mergeErr e]⟩) := by
  rw [import_obj_red, hT]

theorem import_red2 (now : String) (o : List (String × Json)) (s s1 : St)
    (n1 : Nat) (hT : importToolsSec now (Json.obj o) s = (s1, n1, none)) :
    import_all_data now (Json.obj o) s =
      (match importCommentsSec (Json.obj o) s1 with
       | (s2, n2, some e) =>
         (s2, ⟨n1, n2, 0, versionErrs (Json.obj o) ++ [mergeErr e]⟩)
       | (s2, n2, none) =>
         match importLinksSec (Json.obj o) s2 with
         | (s3, n3, some e) =>
           (s3, ⟨n1, n2, n3, versionErrs (Json.obj o) ++ [mergeErr e]⟩)
         | (s3, n3, none) => (s3, ⟨n1, n2, n3, versionErrs (Json.obj o)⟩)) := by
  rw [import_obj_red, hT]

theorem import_red_cerr (now : String) (o : List (String × Json)) (s s1 s2 : St)
    (n1 n2 : Nat) (e : String)
    (hT : importToolsSec now (Json.obj o) s = (s1, n1, none))
    (hC : importCommentsSec (Json.obj o) s1 = (s2, n2, some e)) :
    import_all_data now (Json.obj o) s =
      (s2, ⟨n1, n2, 0, versionErrs (Json.obj o) ++ [mergeErr e]⟩) := by
  rw [import_red2 now o s s1 n1 hT, hC]

theorem import_red3 (now : String) (o : List (String × Json)) (s s1 s2 : St)
    (n1 n2 : Nat)
    (hT : importToolsSec now (Json.obj o) s = (s1, n1, none))
    (hC : importCommentsSec (Json.obj o) s1 = (s2, n2, none)) :
    import_all_data now (Json.obj o) s =
      (match importLinksSec (Json.obj o) s2 with
       | (s3, n3, some e) =>
         (s3, ⟨n1, n2, n3, versionErrs (Json.obj o) ++ [mergeErr e]⟩)
       | (s3, n3, none) => (s3, ⟨n1, n2, n3, versionErrs (Json.obj o)⟩)) := by
  rw [import_red2 now o s s1 n1 hT, hC]

theorem import_red_lerr (now : String) (o : List (String × Json))
    (s s1 s2 s3 : St) (n1 n2 n3 : Nat) (e : String)
    (hT : importToolsSec now (Json.obj o) s = (s1, n1, none))
    (hC : importCommentsSec (Json.obj o) s1 = (s2, n2, none))
    (hL : importLinksSec (Json.obj o) s2 = (s3, n3, some e)) :
    import_all_data now (Json.obj o) s =
      (s3, ⟨n1, n2, n3, versionErrs (Json.obj o) ++ [mergeErr e]⟩) := by
  rw [import_red3 now o s s1 s2 n1 n2 hT hC, hL]

theorem import_red_ok (now : String) (o : List (String × Json))
    (s s1 s2 s3 : St) (n1 n2 n3 : Nat)
    (hT : importToolsSec now (Json.obj o) s = (s1, n1, none))
    (hC : importCommentsSec (Json.obj o) s1 = (s2, n2, none))
    (hL : importLinksSec (Json.obj o) s2 = (s3, n3, none)) :
    import_all_data now (Json.obj o) s =
      (s3, ⟨n1, n2, n3, versionErrs (Json.obj o)⟩) := by
  rw [import_red3 now o s s1 s2 n1 n2 hT hC, hL]

/-! ## Assembled extension facts -/

theorem stExtends_refl (s : St) : StExtends s s :=
  ⟨listLe_refl _, annLe_refl _, annLe_refl _⟩

theorem stExtends_trans {a b c : St} (h1 : StExtends a b)
    (h2 : StExtends b c) : StExtends a c :=
  ⟨listLe_trans h1.1 h2.1, annLe_trans h1.2.1 h2.2.1, annLe_trans h1.2.2 h2.2.2⟩

theorem toolsSec_ext {now : String} {d : Json} {s s2 : St} {n : Nat}
    (h : importToolsSec now d s = (s2, n, none)) : StExtends s s2 := by
  obtain ⟨hc, hl, hle, _⟩ := importToolsSec_post now d s s2 n h
  exact ⟨hle, by rw [hc]; exact annLe_refl _, by rw [hl]; exact annLe_refl _⟩

theorem commentsSec_ext {d : Json} {s s2 : St} {n : Nat}
    (h : importCommentsSec d s = (s2, n, none)) : StExtends s s2 := by
  obtain ⟨ht, hl, hext, _⟩ := importCommentsSec_post d s s2 n h
  exact ⟨by rw [ht]; exact listLe_refl _, hext.toAnnLe,
    by rw [hl]; exact annLe_refl _⟩

theorem linksSec_ext {d : Json} {s s2 : St} {n : Nat}
    (h : importLinksSec d s = (s2, n, none)) : StExtends s s2 := by
  obtain ⟨ht, hc, hext, _⟩ := importLinksSec_post d s s2 n h
  exact ⟨by rw [ht]; exact listLe_refl _, by rw [hc]; exact annLe_refl _,
    hext.toAnnLe⟩

theorem append_singleton_ne (l : List String) (x : String) : l ++ [x] ≠ l := by
  intro h
  have := congrArg List.length h
  simp at this

/-! ## C6 — import never raises; partial success is kept, not rolled back -/

/-- C6: for every incoming document and store, `import_all_data` returns a
result (the embedding is total: every internal exception is reified), the
final state only extends the initial one — the saves of sections that
completed before a failure are preserved, never rolled back, and nothing is
overwritten or deleted — and the error list is exactly the version warnings,
plus one trailing merge-failure message when a section raised. -/
theorem c6_import_never_raises (now : String) (d : Json) (s : St) :
    StExtends s (import_all_data now d s).1 ∧
    ((import_all_data now d s).2.errors = versionErrs d ∨
     ∃ m, (import_all_data now d s).2.errors = versionErrs d ++ [mergeErr m]) := by
  cases d with
  | obj o =>
    rcases hT : importToolsSec now (Json.obj o) s with ⟨s1, n1, e1⟩
    cases e1 with
    | some e =>
      have hs1 : s1 = s := importToolsSec_err now _ s s1 n1 e hT
      rw [hs1] at hT
      rw [import_red_terr now o s s n1 e hT]
      exact ⟨stExtends_refl s, Or.inr ⟨e, rfl⟩⟩
    | none =>
      have hx1 : StExtends s s1 := toolsSec_ext hT
      rcases hC : importCommentsSec (Json.obj o) s1 with ⟨s2, n2, e2⟩
      cases e2 with
      | some e =>
        have hs2 : s2 = s1 := importCommentsSec_err _ s1 s2 n2 e hC
        rw [hs2] at hC
        rw [import_red_cerr now o s s1 s1 n1 n2 e hT hC]
        exact ⟨hx1, Or.inr ⟨e, rfl⟩⟩
      | none =>
        have hx2 : StExtends s1 s2 := commentsSec_ext hC
        rcases hL : importLinksSec (Json.obj o) s2 with ⟨s3, n3, e3⟩
        cases e3 with
        | some e =>
          have hs3 : s3 = s2 := importLinksSec_err _ s2 s3 n3 e hL
          rw [hs3] at hL
          rw [import_red_lerr now o s s1 s2 s2 n1 n2 n3 e hT hC hL]
          exact ⟨stExtends_trans hx1 hx2, Or.inr ⟨e, rfl⟩⟩
        | none =>
          have hx3 : StExtends s2 s3 := linksSec_ext hL
          rw [import_red_ok now o s s1 s2 s3 n1 n2 n3 hT hC hL]
          exact ⟨stExtends_trans (stExtends_trans hx1 hx2) hx3, Or.inl rfl⟩
  | null => exact ⟨stExtends_refl s, Or.inr ⟨"AttributeError: get", rfl⟩⟩
  | bool b => exact ⟨stExtends_refl s, Or.inr ⟨"AttributeError: get", rfl⟩⟩
  | num n => exact ⟨stExtends_refl s, Or.inr ⟨"AttributeError: get", rfl⟩⟩
  | str s2 => exact ⟨stExtends_refl s, Or.inr ⟨"AttributeError: get", rfl⟩⟩
  | arr l => exact ⟨stExtends_refl s, Or.inr ⟨"AttributeError: get", rfl⟩⟩

/-! ## C5 — the export / import round trip -/

theorem containsKey_of_mem {m : List (String × List Json)} {k : String}
    {v : List Json} (h : (k, v) ∈ m) : containsKey k m = true := by
  induction m with
  | nil => simp at h
  | cons p t ih =>
    rcases List.mem_cons.mp h with rfl | h2
    · simp [containsKey]
    · simp [containsKey, ih h2]

theorem getListD_of_mem_nodup {m : List (String × List Json)} {k : String}
    {v : List Json} (hnd : (m.map (·.1)).Nodup) (h : (k, v) ∈ m) :
    getListD k m = v := by
  induction m with
  | nil => simp at h
  | cons p t ih =>
    rw [List.map_cons, List.nodup_cons] at hnd
    rcases List.mem_cons.mp h with rfl | h2
    · simp [getListD]
    · have hne : ¬ (p.1 == k) = true := by
        intro he
        exact hnd.1 (by
          rw [beq_iff_eq.mp he]
          exact List.mem_map_of_mem _ h2)
      simp only [getListD, hne, if_false, Bool.false_eq_true]
      exact ih hnd.2 h2

/-- Normalizing a serialized stored entry succeeds and recomputes the id
from the re-stripped name and link. -/
theorem normTool_toJson (now : String) (t : Tool) :
    normTool now (Tool.toJson t) =
      .ok ⟨pyStrip t.name, pyStrip t.link, pyStrip t.description,
        pyStrip t.category, t.keywords, t.price_euros_1_to_5,
        addedAt now (Tool.toJson t), [],
        tool_id (pyStrip t.name) (pyStrip t.link)⟩ := rfl

/-- C5 (amended): on any store in which every catalog entry re-derives to an
id already present (true of all states the app itself produces, where the
stored id is the recomputed content id of the stripped fields) and whose
annotation stores are well-formed, `import(export())` leaves the stores
untouched and reports zero imported tools, comments and links and an empty
error list. -/
theorem c5_round_trip_amended (now date : String) (s : St)
    (ht : ∀ t ∈ s.tools, (t.name != "" || t.link != "") = true →
      (s.tools.map (·.id)).contains
        (tool_id (pyStrip t.name) (pyStrip t.link)) = true)
    (hcw : AnnWf s.comments) (hlw : AnnWf s.links) :
    import_all_data now (export_all_data date s) s = (s, ⟨0, 0, 0, []⟩) := by
  have hexp : export_all_data date s = Json.obj
      [("version", .str "1.0"),
       ("export_date", .str date),
       ("tools", .arr (s.tools.map Tool.toJson)),
       ("comments", .obj (s.comments.map (fun p => (p.1, Json.arr p.2)))),
       ("external_links", .obj (s.links.map (fun p => (p.1, Json.arr p.2)))),
       ("metadata", .obj [("total_tools", .num s.tools.length),
         ("total_comments", .num (annotCount s.comments)),
         ("total_links", .num (annotCount s.links))])] := rfl
  rw [hexp]
  set o : List (String × Json) :=
      [("version", .str "1.0"),
       ("export_date", .str date),
       ("tools", .arr (s.tools.map Tool.toJson)),
       ("comments", .obj (s.comments.map (fun p => (p.1, Json.arr p.2)))),
       ("external_links", .obj (s.links.map (fun p => (p.1, Json.arr p.2)))),
       ("metadata", .obj [("total_tools", .num s.tools.length),
         ("total_comments", .num (annotCount s.comments)),
         ("total_links", .num (annotCount s.links))])] with hodef
  have hdt : docToolsOf (Json.obj o) = s.tools.map Tool.toJson := by
    rw [hodef]
    rfl
  have hdc : docCommentsOf (Json.obj o) =
      s.comments.map (fun p => (p.1, Json.arr p.2)) := by
    rw [hodef]
    rfl
  have hdl : docLinksOf (Json.obj o) =
      s.links.map (fun p => (p.1, Json.arr p.2)) := by
    rw [hodef]
    rfl
  have hsatT : ∀ t2 ∈ docToolsOf (Json.obj o), tEligible t2 = true →
      ∃ nt, normTool now t2 = .ok nt ∧
        (s.tools.map (·.id)).contains nt.id = true := by
    rw [hdt]
    intro t2 ht2 he2
    obtain ⟨t, htm, rfl⟩ := List.mem_map.mp ht2
    refine ⟨_, normTool_toJson now t, ?_⟩
    exact ht t htm he2
  have hsatAnn : ∀ (m : List (String × List Json)) (f1 f2 : String),
      AnnWf m → SatA f1 f2 (m.map (fun p => (p.1, Json.arr p.2))) m := by
    intro m f1 f2 hw p hp cs hcs
    obtain ⟨⟨k2, v2⟩, hqm, rfl⟩ := List.mem_map.mp hp
    dsimp only at hcs ⊢
    cases hcs
    have hget : getListD k2 m = cs := getListD_of_mem_nodup hw.1 hqm
    refine ⟨containsKey_of_mem hqm, ?_⟩
    intro c hc hel
    rw [hget]
    refine ⟨fun z hz => hw.2 (k2, cs) hqm z hz, ?_⟩
    exact memIds_of_mem c cs hc (hw.2 (k2, cs) hqm c hc).2
  have hT := importToolsSec_idem now (Json.obj o) s hsatT
  have hC := importCommentsSec_idem (Json.obj o) s (by
    rw [hdc]
    exact hsatAnn s.comments "author" "content" hcw)
  have hL := importLinksSec_idem (Json.obj o) s (by
    rw [hdl]
    exact hsatAnn s.links "title" "url" hlw)
  rw [import_red_ok now o s s s s 0 0 0 hT hC hL]
  rw [hodef]
  rfl

/-- C5 witness: a concrete app-produced store (one entry with its recomputed
id, one comment, one link) round-trips with zero imports and no errors. -/
theorem c5_witness :
    import_all_data "T" (export_all_data "D" sGood) sGood =
      (sGood, ⟨0, 0, 0, []⟩) :=
  c5_round_trip_amended "T" "D" sGood (by decide)
    (by
      refine ⟨by simp [sGood], ?_⟩
      intro p hp c hc
      simp only [sGood, List.mem_cons, List.not_mem_nil, or_false] at hp
      rcases hp with rfl
      simp only [List.mem_cons, List.not_mem_nil, or_false] at hc
      rcases hc with rfl
      exact ⟨⟨_, rfl⟩, rfl⟩)
    (by
      refine ⟨by simp [sGood], ?_⟩
      intro p hp c hc
      simp only [sGood, List.mem_cons, List.not_mem_nil, or_false] at hp
      rcases hp with rfl
      simp only [List.mem_cons, List.not_mem_nil, or_false] at hc
      rcases hc with rfl
      exact ⟨⟨_, rfl⟩, rfl⟩)

/-- C5 counterexample: a store whose single entry carries the id `"wrong"`
(not the recomputed content id, as a hand-edited store file can) re-imports
its own export: `tools_imported` is 1, not the 0 the claim asserts for every
store state. -/
theorem c5_counterexample :
    (import_all_data "T" (export_all_data "D" sBad) sBad).2.tools_imported = 1 ∧
    ¬ ((import_all_data "T" (export_all_data "D" sBad) sBad).2.tools_imported
        = 0) := by
  refine ⟨?_, ?_⟩
  · decide
  · decide

/-! ## C1 — the import merge is idempotent and additive-only -/

/-- C1 (amended): for every document and store, a second application of
`import_all_data` leaves the persisted stores exactly as after the first,
and the first application never overwrites or deletes an existing record
(the stores only extend).  The second-pass counters are all 0 *provided the
first pass reported no merge failure* (its `errors` are exactly the version
warnings); when a section raises mid-way its unsaved additions are lost but
already counted, so a failing document can report the same nonzero counter
on every pass. -/
theorem c1_import_merge_idempotent_amended (now1 now2 : String) (d : Json)
    (s : St) :
    (import_all_data now2 d (import_all_data now1 d s).1).1 =
      (import_all_data now1 d s).1 ∧
    StExtends s (import_all_data now1 d s).1 ∧
    ((import_all_data now1 d s).2.errors = versionErrs d →
      (import_all_data now2 d (import_all_data now1 d s).1).2.tools_imported
        = 0 ∧
      (import_all_data now2 d (import_all_data now1 d s).1).2.comments_imported
        = 0 ∧
      (import_all_data now2 d (import_all_data now1 d s).1).2.links_imported
        = 0) := by
  cases d with
  | obj o =>
    rcases hT : importToolsSec now1 (Json.obj o) s with ⟨s1, n1, e1⟩
    cases e1 with
    | some e =>
      have hs1 : s1 = s := importToolsSec_err now1 _ s s1 n1 e hT
      rw [hs1] at hT
      have hp1 := import_red_terr now1 o s s n1 e hT
      have hEq : (importToolsSec now2 (Json.obj o) s).2 = (n1, some e) := by
        rw [← importToolsSec_now now1 now2 (Json.obj o) s, hT]
      rcases hT2 : importToolsSec now2 (Json.obj o) s with ⟨s1b, n1b, e1b⟩
      rw [hT2] at hEq
      dsimp only at hEq
      cases hEq
      have hs1b : s1b = s := importToolsSec_err now2 _ s s1b n1 e hT2
      rw [hs1b] at hT2
      have hp2 := import_red_terr now2 o s s n1 e hT2
      refine ⟨?_, ?_, ?_⟩
      · rw [hp1]
        show (import_all_data now2 (Json.obj o) s).1 = s
        rw [hp2]
      · rw [hp1]
        exact stExtends_refl s
      · intro hv
        rw [hp1] at hv
        exact absurd hv (append_singleton_ne _ _)
    | none =>
      obtain ⟨hc1, hl1, hle1, hsat1⟩ := importToolsSec_post now1 _ s s1 n1 hT
      have hx1 : StExtends s s1 := toolsSec_ext hT
      have hsat2 : ∀ t ∈ docToolsOf (Json.obj o), tEligible t = true →
          ∃ nt, normTool now2 t = .ok nt ∧
            (s1.tools.map (·.id)).contains nt.id = true := by
        intro t ht he
        obtain ⟨nt, hnt, hcont⟩ := hsat1 t ht he
        rcases normTool_now now1 now2 t with ⟨e2, hx, _⟩ | ⟨a, b, ha, hb, hab⟩
        · rw [hnt] at hx
          cases hx
        · rw [hnt] at ha
          injection ha with ha2
          refine ⟨b, hb, ?_⟩
          rw [← hab, ← ha2]
          exact hcont
      rcases hC : importCommentsSec (Json.obj o) s1 with ⟨s2, n2, e2⟩
      cases e2 with
      | some e =>
        have hs2 : s2 = s1 := importCommentsSec_err _ s1 s2 n2 e hC
        rw [hs2] at hC
        have hp1 := import_red_cerr now1 o s s1 s1 n1 n2 e hT hC
        have hT2 := importToolsSec_idem now2 (Json.obj o) s1 hsat2
        have hp2 := import_red_cerr now2 o s1 s1 s1 0 n2 e hT2 hC
        refine ⟨?_, ?_, ?_⟩
        · rw [hp1]
          show (import_all_data now2 (Json.obj o) s1).1 = s1
          rw [hp2]
        · rw [hp1]
          exact hx1
        · intro hv
          rw [hp1] at hv
          exact absurd hv (append_singleton_ne _ _)
      | none =>
        obtain ⟨ht2a, hl2a, hext2, hsatC⟩ :=
          importCommentsSec_post _ s1 s2 n2 hC
        have hx2 : StExtends s1 s2 := commentsSec_ext hC
        rcases hL : importLinksSec (Json.obj o) s2 with ⟨s3, n3, e3⟩
        cases e3 with
        | some e =>
          have hs3 : s3 = s2 := importLinksSec_err _ s2 s3 n3 e hL
          rw [hs3] at hL
          have hp1 := import_red_lerr now1 o s s1 s2 s2 n1 n2 n3 e hT hC hL
          have hT2 := importToolsSec_idem now2 (Json.obj o) s2 (by
            rw [ht2a]
            exact hsat2)
          have hC2 := importCommentsSec_idem (Json.obj o) s2 hsatC
          have hp2 := import_red_lerr now2 o s2 s2 s2 s2 0 0 n3 e hT2 hC2 hL
          refine ⟨?_, ?_, ?_⟩
          · rw [hp1]
            show (import_all_data now2 (Json.obj o) s2).1 = s2
            rw [hp2]
          · rw [hp1]
            exact stExtends_trans hx1 hx2
          · intro hv
            rw [hp1] at hv
            exact absurd hv (append_singleton_ne _ _)
        | none =>
          obtain ⟨ht3a, hc3a, hext3, hsatL⟩ :=
            importLinksSec_post _ s2 s3 n3 hL
          have hx3 : StExtends s2 s3 := linksSec_ext hL
          have hp1 := import_red_ok now1 o s s1 s2 s3 n1 n2 n3 hT hC hL
          have hT2 := importToolsSec_idem now2 (Json.obj o) s3 (by
            rw [ht3a, ht2a]
            exact hsat2)
          have hC2 := importCommentsSec_idem (Json.obj o) s3 (by
            rw [hc3a]
            exact hsatC)
          have hL2 := importLinksSec_idem (Json.obj o) s3 hsatL
          have hp2 := import_red_ok now2 o s3 s3 s3 s3 0 0 0 hT2 hC2 hL2
          refine ⟨?_, ?_, ?_⟩
          · rw [hp1]
            show (import_all_data now2 (Json.obj o) s3).1 = s3
            rw [hp2]
          · rw [hp1]
            exact stExtends_trans (stExtends_trans hx1 hx2) hx3
          · intro hv
            rw [hp1]
            show (import_all_data now2 (Json.obj o) s3).2.tools_imported = 0 ∧
              (import_all_data now2 (Json.obj o) s3).2.comments_imported = 0 ∧
              (import_all_data now2 (Json.obj o) s3).2.links_imported = 0
            rw [hp2]
            exact ⟨rfl, rfl, rfl⟩
  | null =>
    refine ⟨rfl, stExtends_refl s, ?_⟩
    intro hv
    exact absurd hv (List.cons_ne_nil _ _)
  | bool b =>
    refine ⟨rfl, stExtends_refl s, ?_⟩
    intro hv
    exact absurd hv (List.cons_ne_nil _ _)
  | num n =>
    refine ⟨rfl, stExtends_refl s, ?_⟩
    intro hv
    exact absurd hv (List.cons_ne_nil _ _)
  | str s2 =>
    refine ⟨rfl, stExtends_refl s, ?_⟩
    intro hv
    exact absurd hv (List.cons_ne_nil _ _)
  | arr l =>
    refine ⟨rfl, stExtends_refl s, ?_⟩
    intro hv
    exact absurd hv (List.cons_ne_nil _ _)

/-- C1 witness: on a concrete well-typed document, the second import of the
same document reports zero imported tools, comments and links. -/
theorem c1_witness :
    (import_all_data "b" dW (import_all_data "a" dW St.empty).1).2.tools_imported
      = 0 ∧
    (import_all_data "b" dW (import_all_data "a" dW St.empty).1).2.comments_imported
      = 0 ∧
    (import_all_data "b" dW (import_all_data "a" dW St.empty).1).2.links_imported
      = 0 :=
  (c1_import_merge_idempotent_amended "a" "b" dW St.empty).2.2 (by decide)

/-- C1 counterexample: the document `dC1` holds one importable tool followed
by one whose price raises in `int(...)`.  Each pass appends the good tool in
memory, counts it, then aborts before `save_db`, so *both* passes report
`tools_imported = 1` — the claim that the second pass reports 0 fails (the
persisted catalog is nevertheless unchanged on both passes). -/
theorem c1_counterexample :
    (import_all_data "b" dC1 (import_all_data "a" dC1 St.empty).1).2.tools_imported
      = 1 ∧
    ¬ ((import_all_data "b" dC1
        (import_all_data "a" dC1 St.empty).1).2.tools_imported = 0) := by
  refine ⟨by decide, by decide⟩

/-- C10 witness: a concrete import of two id-less comments and two id-less
links appends only the first of each. -/
theorem c10_witness :
    import_all_data "T"
      (c10doc "k" (.obj [("author", .str "a"), ("content", .str "x")])
        (.obj [("author", .str "b"), ("content", .str "y")])
        "k2" (.obj [("title", .str "a"), ("url", .str "x")])
        (.obj [("title", .str "b"), ("url", .str "y")])) St.empty =
      (⟨[], [("k", [.obj [("author", .str "a"), ("content", .str "x")]])],
        [("k2", [.obj [("title", .str "a"), ("url", .str "x")]])]⟩,
       ⟨0, 1, 1, []⟩) :=
  c10_idless_dedupe "T" St.empty "k" "k2" _ _ _ _ rfl rfl rfl rfl rfl rfl
    rfl rfl rfl rfl rfl rfl rfl rfl

end JukTool
